import Mathlib

/-!
Verification of the view-graph construction and pose-graph initialization
subsystem of the dbarf repository.

The development shallowly embeds the Python sources:
  * `dbarf/utils/union_find.py`  — size-capped union-find (`UnionFind`),
  * `dbarf/geometry/track.py`    — track building, filtering and (de)serialization,
  * `dbarf/pose_util.py`         — view-graph construction, edge classification and
                                   MST-based global-rotation initialization,
  * `dbarf/data_loaders/data_utils.py` — top-k nearby-view selection.

Modelling conventions:
  * Python lists become `List`, in-place mutation becomes explicit state passing.
  * Python dicts become association lists with dict semantics: assignment
    replaces the binding in place when the key exists and appends otherwise
    (`aset`), `pop` removes the binding (`apop`), lookup is `alookup`.
  * Recursion that Python runs unboundedly (path-compressing `find_root`, the
    priority-queue traversal) is given explicit fuel; the invariants proved
    below hold for every fuel value, and the fuel supplied in the top-level
    definitions dominates the number of iterations the Python loops perform.
  * Python floats are modelled as rationals (`ℚ`); `int(x)` on a nonnegative
    float is `⌊x⌋`.  Torch rotation matrices are modelled generically by a
    `RotAlg` (carrier with multiplication, identity and transpose).
  * `queue.PriorityQueue` is modelled observationally: `get` removes the
    least entry in the lexicographic order Python uses on `[priority, data]`.
-/

namespace Dbarf

/-! ### Association lists with Python-dict semantics -/

/-- Lookup of a key in an association list (first binding wins, as in a dict,
whose keys are unique). -/
def alookup {κ α : Type} [DecidableEq κ] (l : List (κ × α)) (k : κ) : Option α :=
  (l.find? (fun p => p.1 = k)).map Prod.snd

/-- `d[k] = v` on a Python dict: replace the binding in place if `k` is
present, otherwise append the new binding at the end. -/
def aset {κ α : Type} [DecidableEq κ] : List (κ × α) → κ → α → List (κ × α)
  | [], k, v => [(k, v)]
  | (k', v') :: rest, k, v =>
    if k' = k then (k, v) :: rest else (k', v') :: aset rest k v

/-- `d.pop(k)` on a Python dict: remove the binding of `k` (first occurrence). -/
def apop {κ α : Type} [DecidableEq κ] : List (κ × α) → κ → List (κ × α)
  | [], _ => []
  | (k', v') :: rest, k =>
    if k' = k then rest else (k', v') :: apop rest k

theorem alookup_nil {κ α : Type} [DecidableEq κ] (k : κ) :
    alookup ([] : List (κ × α)) k = none := rfl

theorem alookup_cons {κ α : Type} [DecidableEq κ] (q : κ × α) (rest : List (κ × α)) (k : κ) :
    alookup (q :: rest) k = if q.1 = k then some q.2 else alookup rest k := by
  obtain ⟨k', v'⟩ := q
  simp only [alookup, List.find?]
  by_cases h : k' = k <;> simp [h]

theorem alookup_aset_self {κ α : Type} [DecidableEq κ] (l : List (κ × α)) (k : κ) (v : α) :
    alookup (aset l k v) k = some v := by
  induction l with
  | nil => simp [aset, alookup_cons]
  | cons p rest ih =>
    obtain ⟨k', v'⟩ := p
    by_cases h : k' = k
    · simp [aset, h, alookup_cons]
    · simp [aset, h, alookup_cons, ih]

theorem alookup_aset_ne {κ α : Type} [DecidableEq κ] (l : List (κ × α)) (k k' : κ) (v : α)
    (h : k ≠ k') : alookup (aset l k v) k' = alookup l k' := by
  induction l with
  | nil => simp [aset, alookup_cons, h]
  | cons p rest ih =>
    obtain ⟨k₀, v₀⟩ := p
    by_cases h₀ : k₀ = k
    · subst h₀
      simp [aset, alookup_cons, h]
    · simp [aset, h₀, alookup_cons, ih]

theorem apop_mem {κ α : Type} [DecidableEq κ] (l : List (κ × α)) (k : κ) (p : κ × α)
    (h : p ∈ apop l k) : p ∈ l := by
  induction l with
  | nil => simp [apop] at h
  | cons q rest ih =>
    obtain ⟨k₀, v₀⟩ := q
    by_cases h₀ : k₀ = k
    · simp only [apop, if_pos h₀] at h
      exact List.mem_cons_of_mem _ h
    · simp only [apop, if_neg h₀] at h
      rcases List.mem_cons.mp h with h | h
      · exact h ▸ List.mem_cons_self _ _
      · exact List.mem_cons_of_mem _ (ih h)

/-- Keys of `apop l k` form a sublist of the keys of `l`. -/
theorem apop_keys_sublist {κ α : Type} [DecidableEq κ] (l : List (κ × α)) (k : κ) :
    ((apop l k).map Prod.fst).Sublist (l.map Prod.fst) := by
  induction l with
  | nil => simp [apop]
  | cons q rest ih =>
    obtain ⟨k₀, v₀⟩ := q
    by_cases h₀ : k₀ = k
    · simp only [apop, if_pos h₀, List.map_cons]
      exact (List.sublist_cons_self _ _)
    · simp only [apop, if_neg h₀, List.map_cons]
      exact List.Sublist.cons₂ _ ih

theorem apop_key_not_mem {κ α : Type} [DecidableEq κ] (l : List (κ × α)) (k : κ)
    (hnd : (l.map Prod.fst).Nodup) : k ∉ (apop l k).map Prod.fst := by
  induction l with
  | nil => simp [apop]
  | cons q rest ih =>
    obtain ⟨k₀, v₀⟩ := q
    simp only [List.map_cons, List.nodup_cons] at hnd
    by_cases h₀ : k₀ = k
    · subst h₀
      simp only [apop, if_pos rfl]
      exact hnd.1
    · simp only [apop, if_neg h₀, List.map_cons, List.mem_cons]
      rintro (h | h)
      · exact h₀ h.symm
      · exact ih hnd.2 h

theorem mem_of_alookup_isNone {κ α : Type} [DecidableEq κ] (l : List (κ × α)) (k : κ)
    (h : alookup l k = none) (p : κ × α) (hp : p ∈ l) : p.1 ≠ k := by
  induction l with
  | nil => simp at hp
  | cons q rest ih =>
    rw [alookup_cons] at h
    by_cases hq : q.1 = k
    · simp [hq] at h
    · simp only [if_neg hq] at h
      rcases List.mem_cons.mp hp with hp | hp
      · exact hp ▸ hq
      · exact ih h hp

/-- With unique keys, membership determines lookup. -/
theorem alookup_of_mem_nodup {κ α : Type} [DecidableEq κ] (l : List (κ × α))
    (hnd : (l.map Prod.fst).Nodup) (p : κ × α) (hp : p ∈ l) :
    alookup l p.1 = some p.2 := by
  induction l with
  | nil => simp at hp
  | cons q rest ih =>
    simp only [List.map_cons, List.nodup_cons] at hnd
    rcases List.mem_cons.mp hp with hp | hp
    · subst hp
      simp [alookup_cons]
    · have hne : q.1 ≠ p.1 := by
        intro h
        exact hnd.1 (h ▸ List.mem_map_of_mem Prod.fst hp)
      rw [alookup_cons, if_neg hne]
      exact ih hnd.2 hp

/-! ### `UnionFind` (dbarf/utils/union_find.py)

The claims concern `UnionFind` as constructed by `__init__` (in the tracked
uses, `init_with_nodes` is never called), so `nodes` is `[0, …, size-1]` and
`node_mapper` is the identity on that range; both are therefore left implicit
and external ids coincide with internal indices. -/

structure UnionFind where
  size : Nat
  maxNumPerSet : Option Nat
  ranks : List Nat
  parents : List Nat
  componentSize : List Nat
deriving DecidableEq

/-- `UnionFind.__init__`. -/
def UnionFind.init (n : Nat) (cap : Option Nat) : UnionFind :=
  { size := n
    maxNumPerSet := cap
    ranks := List.replicate n 0
    parents := List.range n
    componentSize := List.replicate n 1 }

/-- `self.parents[idx]`; out-of-range reads (which Python would reject) default
to `idx` itself. -/
def pGet (ps : List Nat) (idx : Nat) : Nat := ps.getD idx idx

/-- `self.parents[idx] == idx`. -/
def isRootP (ps : List Nat) (idx : Nat) : Prop := pGet ps idx = idx

instance (ps : List Nat) (idx : Nat) : Decidable (isRootP ps idx) := by
  unfold isRootP; infer_instance

/-- `find_root`, fuelled: returns the root and the path-compressed parent
array.  Mirrors the recursion
`self.parents[idx] = self.find_root(self.nodes[self.parents[idx]])`. -/
def findRootAux (ps : List Nat) : Nat → Nat → Nat × List Nat
  | idx, 0 => (idx, ps)
  | idx, fuel + 1 =>
    let p := pGet ps idx
    if p = idx then (idx, ps)
    else
      let res := findRootAux ps p fuel
      (res.1, res.2.set idx res.1)

/-- Pure root computation (ignores compression), fuelled. -/
def rootOfAux (ps : List Nat) : Nat → Nat → Nat
  | idx, 0 => idx
  | idx, fuel + 1 =>
    let p := pGet ps idx
    if p = idx then idx else rootOfAux ps p fuel

/-- `UnionFind.find_root`: fuel `size` dominates the length of any parent
chain (proved below for reachable states). -/
def UnionFind.findRoot (uf : UnionFind) (x : Nat) : Nat × UnionFind :=
  let res := findRootAux uf.parents x uf.size
  (res.1, { uf with parents := res.2 })

/-- The canonical (compression-free) root of `x`. -/
def UnionFind.rootOf (uf : UnionFind) (x : Nat) : Nat :=
  rootOfAux uf.parents x uf.size

/-- The merge performed by `union` once both roots are known and the cap
check has passed (the three union-by-rank branches). -/
def unionMerge (uf : UnionFind) (rx ry : Nat) : UnionFind :=
  if uf.ranks.getD rx 0 < uf.ranks.getD ry 0 then
    { uf with
      componentSize := uf.componentSize.set ry
        (uf.componentSize.getD ry 0 + uf.componentSize.getD rx 0)
      parents := uf.parents.set rx ry }
  else
    let uf' : UnionFind :=
      { uf with
        componentSize := uf.componentSize.set rx
          (uf.componentSize.getD rx 0 + uf.componentSize.getD ry 0)
        parents := uf.parents.set ry rx }
    if uf.ranks.getD rx 0 = uf.ranks.getD ry 0 then
      { uf' with ranks := uf'.ranks.set rx (uf'.ranks.getD rx 0 + 1) }
    else uf'

/-- `(self.max_num_per_set != None) and (component_size[x] + component_size[y]
> self.max_num_per_set)`. -/
def capExceeded (cap : Option Nat) (s : Nat) : Bool :=
  match cap with
  | some m => s > m
  | none => false

/-- The body of `union` after the two root lookups: no-op on equal roots,
no-op when a configured cap would be exceeded, merge otherwise. -/
def unionCore (uf2 : UnionFind) (rx ry : Nat) : UnionFind :=
  if rx = ry then uf2
  else if capExceeded uf2.maxNumPerSet
      (uf2.componentSize.getD rx 0 + uf2.componentSize.getD ry 0) then uf2
  else unionMerge uf2 rx ry

/-- `UnionFind.union`: two mutating `find_root` calls, then `unionCore`. -/
def UnionFind.union (uf : UnionFind) (x y : Nat) : UnionFind :=
  match uf.findRoot x with
  | (rx, uf1) =>
    match uf1.findRoot y with
    | (ry, uf2) => unionCore uf2 rx ry

/-- `UnionFind.validate`'s grouping loop: computes the root of every node in
order, threading the compressed state. -/
def validateAux : List Nat → UnionFind → List Nat × UnionFind
  | [], uf => ([], uf)
  | x :: xs, uf =>
    let r1 := uf.findRoot x
    let rest := validateAux xs r1.2
    (r1.1 :: rest.1, rest.2)

/-- `UnionFind.validate`: groups nodes by root and checks that each group has
at most `max_num_per_set` elements; returns whether all assertions pass (and
the mutated state).  The claims only exercise it with a configured cap, so a
missing cap defaults to 0 here (Python would raise a `TypeError` comparing
with `None`). -/
def UnionFind.validate (uf : UnionFind) : Bool × UnionFind :=
  let res := validateAux (List.range uf.size) uf
  (res.1.all (fun r => res.1.count r ≤ uf.maxNumPerSet.getD 0), res.2)

/-! ### Structural invariants of the union-find forest -/

/-- The canonical root: fuel `n` (the node count) always suffices under the
forest invariant. -/
def rootOfN (n : Nat) (ps : List Nat) (i : Nat) : Nat := rootOfAux ps i n

/-- Number of nodes of strictly larger rank; a termination measure for parent
chains. -/
def rkMeasure (rk : List Nat) (n i : Nat) : Nat :=
  ((Finset.range n).filter (fun j => rk.getD i 0 < rk.getD j 0)).card

/-- Forest invariant: parents in range, ranks strictly increasing along
parent links. -/
structure PInv (n : Nat) (ps rk : List Nat) : Prop where
  plen : ps.length = n
  pbound : ∀ i, i < n → pGet ps i < n
  rinc : ∀ i, i < n → pGet ps i ≠ i → rk.getD i 0 < rk.getD (pGet ps i) 0

theorem pGet_set_self (ps : List Nat) (i r : Nat) (hi : i < ps.length) :
    pGet (ps.set i r) i = r := by
  simp [pGet, List.getD_eq_getElem?_getD, List.getElem?_set_eq_of_lt r hi]

theorem pGet_set_ne (ps : List Nat) (i j r : Nat) (h : i ≠ j) :
    pGet (ps.set i r) j = pGet ps j := by
  simp [pGet, List.getD_eq_getElem?_getD, List.getElem?_set_ne h]

theorem pGet_of_ge (ps : List Nat) (i : Nat) (h : ps.length ≤ i) : pGet ps i = i := by
  simp [pGet, List.getD_eq_getElem?_getD, List.getElem?_eq_none h]

theorem rkMeasure_step {n : Nat} {ps rk : List Nat} (h : PInv n ps rk) {i : Nat}
    (hi : i < n) (hne : pGet ps i ≠ i) :
    rkMeasure rk n (pGet ps i) < rkMeasure rk n i := by
  have hlt := h.rinc i hi hne
  apply Finset.card_lt_card
  rw [Finset.ssubset_def]
  constructor
  · intro j hj
    simp only [Finset.mem_filter, Finset.mem_range] at hj ⊢
    exact ⟨hj.1, lt_trans hlt hj.2⟩
  · intro hsub
    have hp : pGet ps i ∈ (Finset.range n).filter (fun j => rk.getD i 0 < rk.getD j 0) := by
      simp only [Finset.mem_filter, Finset.mem_range]
      exact ⟨h.pbound i hi, hlt⟩
    have := hsub hp
    simp only [Finset.mem_filter, Finset.mem_range] at this
    exact absurd this.2 (lt_irrefl _)

theorem rkMeasure_lt {n i : Nat} (rk : List Nat) (hi : i < n) : rkMeasure rk n i < n := by
  have h1 : (Finset.range n).filter (fun j => rk.getD i 0 < rk.getD j 0) ⊆
      (Finset.range n).erase i := by
    intro j hj
    simp only [Finset.mem_filter, Finset.mem_range] at hj
    refine Finset.mem_erase.mpr ⟨?_, Finset.mem_range.mpr hj.1⟩
    intro he
    exact absurd (he ▸ hj.2) (lt_irrefl _)
  have h2 := Finset.card_le_card h1
  rw [Finset.card_erase_of_mem (Finset.mem_range.mpr hi), Finset.card_range] at h2
  unfold rkMeasure
  omega

theorem rootOfAux_of_isRoot {ps : List Nat} {i : Nat} (hr : pGet ps i = i) :
    ∀ f, rootOfAux ps i f = i
  | 0 => rfl
  | f + 1 => by simp [rootOfAux, hr]

/-- The value of `rootOfAux` does not depend on the fuel, once the fuel
exceeds the rank measure. -/
theorem rootOfAux_stable {n : Nat} {ps rk : List Nat} (h : PInv n ps rk) :
    ∀ k i f₁ f₂, i < n → rkMeasure rk n i ≤ k → k < f₁ → k < f₂ →
      rootOfAux ps i f₁ = rootOfAux ps i f₂ := by
  intro k
  induction k using Nat.strong_induction_on with
  | _ k ih =>
    intro i f₁ f₂ hi hm hf₁ hf₂
    obtain ⟨a, rfl⟩ : ∃ a, f₁ = a + 1 := ⟨f₁ - 1, by omega⟩
    obtain ⟨b, rfl⟩ : ∃ b, f₂ = b + 1 := ⟨f₂ - 1, by omega⟩
    by_cases hr : pGet ps i = i
    · simp [rootOfAux, hr]
    · simp only [rootOfAux, if_neg hr]
      have hstep := rkMeasure_step h hi hr
      exact ih (k - 1) (by omega) (pGet ps i) a b (h.pbound i hi) (by omega)
        (by omega) (by omega)

theorem rootOfAux_isRoot {n : Nat} {ps rk : List Nat} (h : PInv n ps rk) :
    ∀ k i f, i < n → rkMeasure rk n i ≤ k → k < f →
      pGet ps (rootOfAux ps i f) = rootOfAux ps i f ∧ rootOfAux ps i f < n := by
  intro k
  induction k using Nat.strong_induction_on with
  | _ k ih =>
    intro i f hi hm hf
    obtain ⟨a, rfl⟩ : ∃ a, f = a + 1 := ⟨f - 1, by omega⟩
    by_cases hr : pGet ps i = i
    · have he : rootOfAux ps i (a + 1) = i := by simp [rootOfAux, hr]
      rw [he]
      exact ⟨hr, hi⟩
    · simp only [rootOfAux, if_neg hr]
      have hstep := rkMeasure_step h hi hr
      exact ih (k - 1) (by omega) (pGet ps i) a (h.pbound i hi) (by omega) (by omega)

theorem rootOfN_isRoot {n : Nat} {ps rk : List Nat} (h : PInv n ps rk) {i : Nat}
    (hi : i < n) : pGet ps (rootOfN n ps i) = rootOfN n ps i :=
  (rootOfAux_isRoot h (rkMeasure rk n i) i n hi le_rfl (rkMeasure_lt rk hi)).1

theorem rootOfN_lt {n : Nat} {ps rk : List Nat} (h : PInv n ps rk) {i : Nat}
    (hi : i < n) : rootOfN n ps i < n :=
  (rootOfAux_isRoot h (rkMeasure rk n i) i n hi le_rfl (rkMeasure_lt rk hi)).2

theorem rootOfN_of_isRoot {n : Nat} {ps : List Nat} {i : Nat} (hr : pGet ps i = i) :
    rootOfN n ps i = i := rootOfAux_of_isRoot hr n

theorem rootOfN_step {n : Nat} {ps rk : List Nat} (h : PInv n ps rk) {i : Nat}
    (hi : i < n) (hne : pGet ps i ≠ i) :
    rootOfN n ps i = rootOfN n ps (pGet ps i) := by
  obtain ⟨a, ha⟩ : ∃ a, n = a + 1 := ⟨n - 1, by omega⟩
  have hstep := rkMeasure_step h hi hne
  have hmi := rkMeasure_lt rk hi
  unfold rootOfN
  conv_lhs => rw [ha]
  simp only [rootOfAux, if_neg hne]
  exact rootOfAux_stable h (rkMeasure rk n (pGet ps i)) (pGet ps i) a n
    (h.pbound i hi) le_rfl (by omega) (by omega)

theorem rank_le_rootOfN {n : Nat} {ps rk : List Nat} (h : PInv n ps rk) :
    ∀ k i, i < n → rkMeasure rk n i ≤ k →
      rk.getD i 0 ≤ rk.getD (rootOfN n ps i) 0 := by
  intro k
  induction k using Nat.strong_induction_on with
  | _ k ih =>
    intro i hi hm
    by_cases hr : pGet ps i = i
    · rw [rootOfN_of_isRoot hr]
    · have hstep := rkMeasure_step h hi hr
      have h1 := h.rinc i hi hr
      have h2 := ih (k - 1) (by omega) (pGet ps i) (h.pbound i hi) (by omega)
      rw [rootOfN_step h hi hr]
      omega

theorem rank_lt_rootOfN {n : Nat} {ps rk : List Nat} (h : PInv n ps rk) {i : Nat}
    (hi : i < n) (hne : pGet ps i ≠ i) :
    rk.getD i 0 < rk.getD (rootOfN n ps i) 0 := by
  have h1 := h.rinc i hi hne
  have h2 := rank_le_rootOfN h (rkMeasure rk n (pGet ps i)) (pGet ps i)
    (h.pbound i hi) le_rfl
  rw [rootOfN_step h hi hne]
  omega

theorem rootOfN_ne {n : Nat} {ps rk : List Nat} (h : PInv n ps rk) {i : Nat}
    (hi : i < n) (hne : pGet ps i ≠ i) : rootOfN n ps i ≠ i := by
  intro he
  have := rank_lt_rootOfN h hi hne
  rw [he] at this
  exact absurd this (lt_irrefl _)

theorem rootOfN_of_ge {n : Nat} {ps : List Nat} {i : Nat} (hlen : ps.length = n)
    (hge : n ≤ i) : rootOfN n ps i = i :=
  rootOfN_of_isRoot (pGet_of_ge ps i (hlen ▸ hge))

/-! ### Path compression preserves the forest shape -/

theorem compress_set_pinv {n : Nat} {ps rk : List Nat} (h : PInv n ps rk) {i : Nat}
    (hi : i < n) (hne : pGet ps i ≠ i) :
    PInv n (ps.set i (rootOfN n ps i)) rk := by
  refine ⟨by simp [h.plen], ?_, ?_⟩
  · intro j hj
    by_cases hij : i = j
    · subst hij
      rw [pGet_set_self ps i _ (h.plen ▸ hi)]
      exact rootOfN_lt h hi
    · rw [pGet_set_ne ps i j _ hij]
      exact h.pbound j hj
  · intro j hj hjne
    by_cases hij : i = j
    · subst hij
      rw [pGet_set_self ps i _ (h.plen ▸ hi)] at hjne ⊢
      exact rank_lt_rootOfN h hi hne
    · rw [pGet_set_ne ps i j _ hij] at hjne ⊢
      exact h.rinc j hj hjne

theorem compress_set_isRoot {n : Nat} {ps rk : List Nat} (h : PInv n ps rk) {i : Nat}
    (hi : i < n) (hne : pGet ps i ≠ i) :
    ∀ j, (pGet (ps.set i (rootOfN n ps i)) j = j ↔ pGet ps j = j) := by
  intro j
  by_cases hij : i = j
  · subst hij
    rw [pGet_set_self ps i _ (h.plen ▸ hi)]
    constructor
    · intro hr
      exact absurd hr (rootOfN_ne h hi hne)
    · intro hr
      exact absurd hr hne
  · rw [pGet_set_ne ps i j _ hij]

theorem compress_set_roots {n : Nat} {ps rk : List Nat} (h : PInv n ps rk) {i : Nat}
    (hi : i < n) (hne : pGet ps i ≠ i) :
    ∀ j, rootOfN n (ps.set i (rootOfN n ps i)) j = rootOfN n ps j := by
  have hpinv' := compress_set_pinv h hi hne
  have hrlt := rootOfN_lt h hi
  have hrne := rootOfN_ne h hi hne
  have hroot := rootOfN_isRoot h hi
  intro j
  rcases Nat.lt_or_ge j n with hj | hj
  · -- strong induction on the rank measure of `j`
    have main : ∀ k j, j < n → rkMeasure rk n j ≤ k →
        rootOfN n (ps.set i (rootOfN n ps i)) j = rootOfN n ps j := by
      intro k
      induction k using Nat.strong_induction_on with
      | _ k ih =>
        intro j hjn hm
        by_cases hij : i = j
        · subst hij
          have hstep' : pGet (ps.set i (rootOfN n ps i)) i = rootOfN n ps i :=
            pGet_set_self ps i _ (h.plen ▸ hi)
          have hne' : pGet (ps.set i (rootOfN n ps i)) i ≠ i := by
            rw [hstep']; exact hrne
          rw [rootOfN_step hpinv' hi hne', hstep']
          have : pGet (ps.set i (rootOfN n ps i)) (rootOfN n ps i) = rootOfN n ps i := by
            rw [pGet_set_ne ps i _ _ (fun he => hrne he.symm)]
            exact hroot
          rw [rootOfN_of_isRoot this]
        · have hval : pGet (ps.set i (rootOfN n ps i)) j = pGet ps j :=
            pGet_set_ne ps i j _ hij
          by_cases hr : pGet ps j = j
          · rw [rootOfN_of_isRoot (hval.trans hr), rootOfN_of_isRoot hr]
          · have hne' : pGet (ps.set i (rootOfN n ps i)) j ≠ j := by rw [hval]; exact hr
            rw [rootOfN_step hpinv' hjn hne', rootOfN_step h hjn hr, hval]
            have hstep := rkMeasure_step h hjn hr
            exact ih (k - 1) (by omega) (pGet ps j) (h.pbound j hjn) (by omega)
    exact main (rkMeasure rk n j) j hj le_rfl
  · rw [rootOfN_of_ge (by simp [h.plen]) hj, rootOfN_of_ge h.plen hj]

/-- Full specification of path-compressing `find_root`: it returns the
canonical root, keeps the forest invariant, changes no node's root, and
changes no node's root-ness. -/
theorem findRootAux_spec {n : Nat} {ps rk : List Nat} (h : PInv n ps rk) :
    ∀ f k i, i < n → rkMeasure rk n i ≤ k → k < f →
      (findRootAux ps i f).1 = rootOfN n ps i ∧
      PInv n (findRootAux ps i f).2 rk ∧
      (∀ j, rootOfN n (findRootAux ps i f).2 j = rootOfN n ps j) ∧
      (∀ j, (pGet (findRootAux ps i f).2 j = j ↔ pGet ps j = j)) ∧
      (findRootAux ps i f).2.length = n := by
  intro f
  induction f with
  | zero => intro k i _ _ hf; omega
  | succ a ih =>
    intro k i hi hm _
    by_cases hr : pGet ps i = i
    · simp only [findRootAux, if_pos hr]
      refine ⟨(rootOfN_of_isRoot hr).symm, h, ?_, ?_, h.plen⟩ <;> simp
    · simp only [findRootAux, if_neg hr]
      have hstep := rkMeasure_step h hi hr
      have hmlt := rkMeasure_lt rk hi
      obtain ⟨hfst, hpinv1, hroots1, hiff1, hlen1⟩ :=
        ih (rkMeasure rk n (pGet ps i)) (pGet ps i) (h.pbound i hi) le_rfl (by omega)
      set q := (findRootAux ps (pGet ps i) a).2 with hq
      have hfst' : (findRootAux ps (pGet ps i) a).1 = rootOfN n ps i := by
        rw [hfst, ← rootOfN_step h hi hr]
      have hqne : pGet q i ≠ i := fun hh => hr ((hiff1 i).mp hh)
      have hval : (findRootAux ps (pGet ps i) a).1 = rootOfN n q i := by
        rw [hfst', hroots1 i]
      have hin : i < q.length := hlen1 ▸ hi
      refine ⟨hfst', ?_, ?_, ?_, ?_⟩
      · show PInv n (q.set i (findRootAux ps (pGet ps i) a).1) rk
        rw [hval]
        exact compress_set_pinv hpinv1 hi hqne
      · intro j
        show rootOfN n (q.set i (findRootAux ps (pGet ps i) a).1) j = rootOfN n ps j
        rw [hval, compress_set_roots hpinv1 hi hqne j, hroots1 j]
      · intro j
        show pGet (q.set i (findRootAux ps (pGet ps i) a).1) j = j ↔ pGet ps j = j
        rw [hval]
        exact (compress_set_isRoot hpinv1 hi hqne j).trans (hiff1 j)
      · show (q.set i (findRootAux ps (pGet ps i) a).1).length = n
        simp [hlen1]

/-! ### Merging two roots -/

theorem getD_set_self {α : Type} (l : List α) (i : Nat) (v d : α) (h : i < l.length) :
    (l.set i v).getD i d = v := by
  simp [List.getD_eq_getElem?_getD, List.getElem?_set_eq_of_lt v h]

theorem getD_set_ne {α : Type} (l : List α) (i j : Nat) (v d : α) (h : i ≠ j) :
    (l.set i v).getD j d = l.getD j d := by
  simp [List.getD_eq_getElem?_getD, List.getElem?_set_ne h]

theorem merge_set_pinv {n : Nat} {ps rk : List Nat} (h : PInv n ps rk) {a b : Nat}
    (ha : a < n) (hb : b < n) (hab : a ≠ b)
    (hrk : rk.getD a 0 < rk.getD b 0) :
    PInv n (ps.set a b) rk := by
  refine ⟨by simp [h.plen], ?_, ?_⟩
  · intro j hj
    by_cases haj : a = j
    · subst haj
      rw [pGet_set_self ps a b (h.plen ▸ ha)]
      exact hb
    · rw [pGet_set_ne ps a j b haj]
      exact h.pbound j hj
  · intro j hj hjne
    by_cases haj : a = j
    · subst haj
      rw [pGet_set_self ps a b (h.plen ▸ ha)] at hjne ⊢
      exact hrk
    · rw [pGet_set_ne ps a j b haj] at hjne ⊢
      exact h.rinc j hj hjne

theorem merge_set_isRoot {n : Nat} {ps : List Nat} {a b : Nat} (hlen : ps.length = n)
    (ha : a < n) (hab : a ≠ b) :
    ∀ j, (pGet (ps.set a b) j = j ↔ (pGet ps j = j ∧ j ≠ a)) := by
  intro j
  by_cases haj : a = j
  · subst haj
    rw [pGet_set_self ps a b (hlen ▸ ha)]
    constructor
    · intro hba
      exact absurd hba.symm hab
    · intro hc
      exact absurd rfl hc.2
  · rw [pGet_set_ne ps a j b haj]
    exact ⟨fun hh => ⟨hh, fun hja => haj hja.symm⟩, And.left⟩

theorem merge_set_roots {n : Nat} {ps rk : List Nat} (h : PInv n ps rk) {a b : Nat}
    (ha : a < n) (hb : b < n) (hra : pGet ps a = a) (hrb : pGet ps b = b)
    (hab : a ≠ b) (hrk : rk.getD a 0 < rk.getD b 0) :
    ∀ j, rootOfN n (ps.set a b) j =
      if rootOfN n ps j = a then b else rootOfN n ps j := by
  have hpinv' := merge_set_pinv h ha hb hab hrk
  intro j
  rcases Nat.lt_or_ge j n with hj | hj
  · have main : ∀ k j, j < n → rkMeasure rk n j ≤ k →
        rootOfN n (ps.set a b) j = if rootOfN n ps j = a then b else rootOfN n ps j := by
      intro k
      induction k using Nat.strong_induction_on with
      | _ k ih =>
        intro j hjn hm
        by_cases haj : a = j
        · subst haj
          have hpa : pGet (ps.set a b) a = b := pGet_set_self ps a b (h.plen ▸ ha)
          have hne' : pGet (ps.set a b) a ≠ a := by
            rw [hpa]; exact fun hba => hab hba.symm
          have hpb : pGet (ps.set a b) b = b := by
            rw [pGet_set_ne ps a b b hab]; exact hrb
          rw [rootOfN_step hpinv' hjn hne', hpa, rootOfN_of_isRoot hpb,
            rootOfN_of_isRoot hra, if_pos rfl]
        · have hval : pGet (ps.set a b) j = pGet ps j := pGet_set_ne ps a j b haj
          by_cases hr : pGet ps j = j
          · rw [rootOfN_of_isRoot (hval.trans hr), rootOfN_of_isRoot hr,
              if_neg (fun hja => haj hja.symm)]
          · have hne' : pGet (ps.set a b) j ≠ j := by rw [hval]; exact hr
            rw [rootOfN_step hpinv' hjn hne', rootOfN_step h hjn hr, hval]
            have hstep := rkMeasure_step h hjn hr
            exact ih (k - 1) (by omega) (pGet ps j) (h.pbound j hjn) (by omega)
    exact main (rkMeasure rk n j) j hj le_rfl
  · rw [rootOfN_of_ge (by simp [h.plen]) hj, rootOfN_of_ge h.plen hj,
      if_neg (fun hja => absurd (hja ▸ ha) (by omega))]

/-- Bumping the rank of a root preserves the forest invariant. -/
theorem pinv_rank_bump {n : Nat} {ps rk : List Nat} (h : PInv n ps rk)
    (hrklen : rk.length = n) {b : Nat} (hb : b < n) (hrb : pGet ps b = b)
    {v : Nat} (hv : rk.getD b 0 ≤ v) : PInv n ps (rk.set b v) := by
  refine ⟨h.plen, h.pbound, ?_⟩
  intro i hi hine
  have hib : i ≠ b := by
    intro he
    exact hine (he ▸ hrb)
  rw [getD_set_ne rk b i v 0 (fun he => hib he.symm)]
  by_cases hpb : pGet ps i = b
  · rw [hpb, getD_set_self rk b v 0 (hrklen ▸ hb)]
    have := h.rinc i hi hine
    rw [hpb] at this
    omega
  · rw [getD_set_ne rk b (pGet ps i) v 0 (fun he => hpb he.symm)]
    exact h.rinc i hi hine

/-! ### The union-find state invariant -/

/-- The component (as a set of nodes) whose canonical root is `r`. -/
def compOf (n : Nat) (ps : List Nat) (r : Nat) : Finset Nat :=
  (Finset.range n).filter (fun i => rootOfN n ps i = r)

/-- Full invariant of a reachable `UnionFind` state: the forest invariant
together with correct component-size bookkeeping and the configured cap
(`max m 1` because singleton components of size 1 exist from construction
regardless of the cap). -/
structure UFInv (uf : UnionFind) : Prop where
  pinv : PInv uf.size uf.parents uf.ranks
  rlen : uf.ranks.length = uf.size
  clen : uf.componentSize.length = uf.size
  csRoot : ∀ r, r < uf.size → pGet uf.parents r = r →
    uf.componentSize.getD r 0 = (compOf uf.size uf.parents r).card
  csCap : ∀ m, uf.maxNumPerSet = some m → ∀ r, r < uf.size → pGet uf.parents r = r →
    uf.componentSize.getD r 0 ≤ max m 1

theorem compOf_congr {n : Nat} {ps ps' : List Nat}
    (hr : ∀ j, rootOfN n ps' j = rootOfN n ps j) (r : Nat) :
    compOf n ps' r = compOf n ps r := by
  unfold compOf
  apply Finset.filter_congr
  intro j _
  rw [hr j]

theorem rootOf_eq (uf : UnionFind) (x : Nat) :
    uf.rootOf x = rootOfN uf.size uf.parents x := rfl

/-- `find_root` returns the canonical root, preserves the invariant and all
observable state (roots, root-ness, sizes, ranks, component sizes, cap). -/
theorem findRoot_spec (uf : UnionFind) (h : UFInv uf) (x : Nat) (hx : x < uf.size) :
    (uf.findRoot x).1 = uf.rootOf x ∧ UFInv (uf.findRoot x).2 ∧
    (∀ j, (uf.findRoot x).2.rootOf j = uf.rootOf j) ∧
    (∀ j, (pGet (uf.findRoot x).2.parents j = j ↔ pGet uf.parents j = j)) ∧
    (uf.findRoot x).2.size = uf.size ∧
    (uf.findRoot x).2.maxNumPerSet = uf.maxNumPerSet ∧
    (uf.findRoot x).2.ranks = uf.ranks ∧
    (uf.findRoot x).2.componentSize = uf.componentSize := by
  obtain ⟨hfst, hpinv, hroots, hiff, hlen⟩ :=
    findRootAux_spec h.pinv uf.size (rkMeasure uf.ranks uf.size x) x hx le_rfl
      (rkMeasure_lt _ hx)
  refine ⟨hfst, ?_, fun j => hroots j, hiff, rfl, rfl, rfl, rfl⟩
  refine ⟨hpinv, h.rlen, h.clen, ?_, ?_⟩
  · intro r hr hroot
    have hr' : r < uf.size := hr
    have hroot' : pGet (findRootAux uf.parents x uf.size).2 r = r := hroot
    show uf.componentSize.getD r 0 =
      (compOf uf.size (findRootAux uf.parents x uf.size).2 r).card
    rw [compOf_congr hroots r]
    exact h.csRoot r hr' ((hiff r).mp hroot')
  · intro m hm r hr hroot
    have hr' : r < uf.size := hr
    have hroot' : pGet (findRootAux uf.parents x uf.size).2 r = r := hroot
    have hm' : uf.maxNumPerSet = some m := hm
    exact h.csCap m hm' r hr' ((hiff r).mp hroot')

/-- The state produced by the three union-by-rank merge branches keeps the
invariant: `l` (loser root) is attached below `w` (winner root) and the
winner's component size becomes the sum. -/
theorem merged_invariants {n : Nat} {ps rk rk' cs : List Nat} {cap : Option Nat}
    {w l : Nat}
    (huf : UFInv { size := n, maxNumPerSet := cap, ranks := rk, parents := ps,
                   componentSize := cs })
    (hpinv' : PInv n ps rk') (hrk'len : rk'.length = n)
    (hl : l < n) (hw : w < n) (hrl : pGet ps l = l) (hrw : pGet ps w = w)
    (hlw : l ≠ w) (hrklt : rk'.getD l 0 < rk'.getD w 0)
    (hcap : ∀ m, cap = some m → cs.getD w 0 + cs.getD l 0 ≤ max m 1) :
    UFInv { size := n, maxNumPerSet := cap, ranks := rk',
            parents := ps.set l w,
            componentSize := cs.set w (cs.getD w 0 + cs.getD l 0) } := by
  have hroots := merge_set_roots hpinv' hl hw hrl hrw hlw hrklt
  have hiff := merge_set_isRoot (hpinv'.plen) hl hlw
  have hdisj : Disjoint (compOf n ps w) (compOf n ps l) := by
    rw [Finset.disjoint_left]
    intro i hi hi'
    simp only [compOf, Finset.mem_filter] at hi hi'
    exact hlw (hi'.2.symm.trans hi.2)
  have hcompW : compOf n (ps.set l w) w = compOf n ps w ∪ compOf n ps l := by
    ext i
    simp only [compOf, Finset.mem_filter, Finset.mem_union, Finset.mem_range]
    constructor
    · rintro ⟨hin, hroot⟩
      rw [hroots i] at hroot
      by_cases hcase : rootOfN n ps i = l
      · exact Or.inr ⟨hin, hcase⟩
      · rw [if_neg hcase] at hroot
        exact Or.inl ⟨hin, hroot⟩
    · rintro (⟨hin, hroot⟩ | ⟨hin, hroot⟩)
      · refine ⟨hin, ?_⟩
        rw [hroots i, hroot, if_neg (fun he => hlw he.symm)]
      · refine ⟨hin, ?_⟩
        rw [hroots i, hroot, if_pos rfl]
  have hcompO : ∀ r, r ≠ w → r ≠ l → compOf n (ps.set l w) r = compOf n ps r := by
    intro r hrwne hrlne
    ext i
    simp only [compOf, Finset.mem_filter, Finset.mem_range]
    constructor
    · rintro ⟨hin, hroot⟩
      rw [hroots i] at hroot
      by_cases hcase : rootOfN n ps i = l
      · rw [if_pos hcase] at hroot
        exact absurd hroot.symm hrwne
      · rw [if_neg hcase] at hroot
        exact ⟨hin, hroot⟩
    · rintro ⟨hin, hroot⟩
      refine ⟨hin, ?_⟩
      rw [hroots i, hroot, if_neg hrlne]
  refine ⟨merge_set_pinv hpinv' hl hw hlw hrklt, hrk'len, ?_, ?_, ?_⟩
  · show (cs.set w (cs.getD w 0 + cs.getD l 0)).length = n
    rw [List.length_set]
    exact huf.clen
  · intro r hr hroot
    obtain ⟨hrold, hrnel⟩ := (hiff r).mp hroot
    by_cases hrw' : r = w
    · rw [hrw']
      show (cs.set w (cs.getD w 0 + cs.getD l 0)).getD w 0 = _
      rw [getD_set_self cs w _ 0 (by rw [huf.clen]; exact hw), hcompW,
        Finset.card_union_of_disjoint hdisj,
        huf.csRoot w hw hrw, huf.csRoot l hl hrl]
    · show (cs.set w (cs.getD w 0 + cs.getD l 0)).getD r 0 = _
      rw [getD_set_ne cs w r _ 0 (fun he => hrw' he.symm), hcompO r hrw' hrnel]
      exact huf.csRoot r hr hrold
  · intro m hm r hr hroot
    obtain ⟨hrold, hrnel⟩ := (hiff r).mp hroot
    by_cases hrw' : r = w
    · rw [hrw']
      show (cs.set w (cs.getD w 0 + cs.getD l 0)).getD w 0 ≤ max m 1
      rw [getD_set_self cs w _ 0 (by rw [huf.clen]; exact hw)]
      exact hcap m hm
    · show (cs.set w (cs.getD w 0 + cs.getD l 0)).getD r 0 ≤ max m 1
      rw [getD_set_ne cs w r _ 0 (fun he => hrw' he.symm)]
      exact huf.csCap m hm r hr hrold

theorem unionMerge_spec {uf : UnionFind} (h : UFInv uf) {rx ry : Nat}
    (hx : rx < uf.size) (hy : ry < uf.size)
    (hrx : pGet uf.parents rx = rx) (hry : pGet uf.parents ry = ry) (hne : rx ≠ ry)
    (hcap : ∀ m, uf.maxNumPerSet = some m →
      uf.componentSize.getD rx 0 + uf.componentSize.getD ry 0 ≤ m) :
    UFInv (unionMerge uf rx ry) ∧ (unionMerge uf rx ry).size = uf.size ∧
      (unionMerge uf rx ry).maxNumPerSet = uf.maxNumPerSet := by
  unfold unionMerge
  by_cases h1 : uf.ranks.getD rx 0 < uf.ranks.getD ry 0
  · rw [if_pos h1]
    refine ⟨?_, rfl, rfl⟩
    exact merged_invariants h h.pinv h.rlen hx hy hrx hry hne h1
      (fun m hm => by have := hcap m hm; omega)
  · rw [if_neg h1]
    by_cases h2 : uf.ranks.getD rx 0 = uf.ranks.getD ry 0
    · rw [if_pos h2]
      have hpinv' : PInv uf.size uf.parents (uf.ranks.set rx (uf.ranks.getD rx 0 + 1)) :=
        pinv_rank_bump h.pinv h.rlen hx hrx (by omega)
      refine ⟨?_, rfl, rfl⟩
      refine merged_invariants h hpinv' (by rw [List.length_set]; exact h.rlen)
        hy hx hry hrx (fun he => hne he.symm) ?_ ?_
      · rw [getD_set_ne _ rx ry _ 0 hne,
          getD_set_self _ rx _ 0 (by rw [h.rlen]; exact hx)]
        show uf.ranks.getD ry 0 < uf.ranks.getD rx 0 + 1
        omega
      · intro m hm
        have := hcap m hm
        omega
    · rw [if_neg h2]
      have h3 : uf.ranks.getD ry 0 < uf.ranks.getD rx 0 := by omega
      refine ⟨?_, rfl, rfl⟩
      exact merged_invariants h h.pinv h.rlen hy hx hry hrx
        (fun he => hne he.symm) h3 (fun m hm => by have := hcap m hm; omega)

theorem unionCore_spec {uf2 : UnionFind} (h2 : UFInv uf2) (rx ry : Nat)
    (hx : rx < uf2.size) (hy : ry < uf2.size)
    (hrx : pGet uf2.parents rx = rx) (hry : pGet uf2.parents ry = ry) :
    UFInv (unionCore uf2 rx ry) ∧ (unionCore uf2 rx ry).size = uf2.size ∧
      (unionCore uf2 rx ry).maxNumPerSet = uf2.maxNumPerSet := by
  unfold unionCore
  by_cases hxy : rx = ry
  · rw [if_pos hxy]
    exact ⟨h2, rfl, rfl⟩
  · rw [if_neg hxy]
    by_cases hex : capExceeded uf2.maxNumPerSet
        (uf2.componentSize.getD rx 0 + uf2.componentSize.getD ry 0) = true
    · rw [if_pos hex]
      exact ⟨h2, rfl, rfl⟩
    · rw [if_neg hex]
      refine unionMerge_spec h2 hx hy hrx hry hxy ?_
      intro m' hm'
      rw [hm'] at hex
      simp only [capExceeded, decide_eq_true_eq] at hex
      omega

theorem union_spec {uf : UnionFind} (h : UFInv uf) {x y : Nat}
    (hx : x < uf.size) (hy : y < uf.size) :
    UFInv (uf.union x y) ∧ (uf.union x y).size = uf.size ∧
      (uf.union x y).maxNumPerSet = uf.maxNumPerSet := by
  obtain ⟨hfst1, hinv1, hroots1, hiff1, hsz1, hmax1, hrk1, hcs1⟩ := findRoot_spec uf h x hx
  obtain ⟨hfst2, hinv2, hroots2, hiff2, hsz2, hmax2, hrk2, hcs2⟩ :=
    findRoot_spec (uf.findRoot x).2 hinv1 y (by rw [hsz1]; exact hy)
  have hu : uf.union x y =
      unionCore ((uf.findRoot x).2.findRoot y).2 (uf.findRoot x).1
        ((uf.findRoot x).2.findRoot y).1 := rfl
  have hrxuf : pGet uf.parents (uf.findRoot x).1 = (uf.findRoot x).1 := by
    rw [hfst1, rootOf_eq]
    exact rootOfN_isRoot h.pinv hx
  have hrxlt : (uf.findRoot x).1 < uf.size := by
    rw [hfst1, rootOf_eq]
    exact rootOfN_lt h.pinv hx
  have hryuf1 : pGet (uf.findRoot x).2.parents ((uf.findRoot x).2.findRoot y).1 =
      ((uf.findRoot x).2.findRoot y).1 := by
    rw [hfst2, rootOf_eq]
    exact rootOfN_isRoot hinv1.pinv (by rw [hsz1]; exact hy)
  have hrylt : ((uf.findRoot x).2.findRoot y).1 < (uf.findRoot x).2.size := by
    rw [hfst2, rootOf_eq]
    exact rootOfN_lt hinv1.pinv (by rw [hsz1]; exact hy)
  have hcore := unionCore_spec hinv2
    (uf.findRoot x).1 ((uf.findRoot x).2.findRoot y).1
    (by rw [hsz2, hsz1]; exact hrxlt)
    (by rw [hsz2]; exact hrylt)
    ((hiff2 _).mpr ((hiff1 _).mpr hrxuf))
    ((hiff2 _).mpr hryuf1)
  rw [hu]
  exact ⟨hcore.1, by rw [hcore.2.1, hsz2, hsz1], by rw [hcore.2.2, hmax2, hmax1]⟩

/-! ### Reachable states and the cap invariant -/

theorem init_ufinv (n : Nat) (cap : Option Nat) : UFInv (UnionFind.init n cap) := by
  have hget : ∀ i, i < n → pGet (List.range n) i = i := by
    intro i hi
    simp [pGet, List.getD_eq_getElem?_getD, List.getElem?_range, hi]
  have hroot : ∀ i, i < n → rootOfN n (List.range n) i = i := by
    intro i hi
    exact rootOfN_of_isRoot (hget i hi)
  refine ⟨⟨by simp [UnionFind.init], ?_, ?_⟩, by simp [UnionFind.init],
    by simp [UnionFind.init], ?_, ?_⟩
  · intro i hi
    show pGet (List.range n) i < n
    rw [hget i hi]
    exact hi
  · intro i hi hne
    exact absurd (hget i hi) hne
  · intro r hr _
    have hr' : r < n := hr
    show (List.replicate n 1).getD r 0 = (compOf n (List.range n) r).card
    have hcomp : compOf n (List.range n) r = {r} := by
      ext j
      simp only [compOf, Finset.mem_filter, Finset.mem_range, Finset.mem_singleton]
      constructor
      · rintro ⟨hj, he⟩
        rw [← he]
        exact (hroot j hj).symm
      · intro he
        rw [he]
        exact ⟨hr', hroot r hr'⟩
    rw [hcomp, Finset.card_singleton]
    simp [List.getD_eq_getElem?_getD, List.getElem?_replicate, hr']
  · intro m _ r hr _
    have hr' : r < n := hr
    show (List.replicate n 1).getD r 0 ≤ max m 1
    have hval : (List.replicate n 1).getD r 0 = 1 := by
      simp [List.getD_eq_getElem?_getD, List.getElem?_replicate, hr']
    rw [hval]
    exact le_max_right m 1

/-- States reachable from a freshly constructed `UnionFind` by `union` and
`find_root` calls on valid node ids. -/
inductive UFReachable : UnionFind → Prop
  | init (n : Nat) (cap : Option Nat) : UFReachable (UnionFind.init n cap)
  | union {s : UnionFind} (x y : Nat) : UFReachable s → x < s.size → y < s.size →
      UFReachable (s.union x y)
  | find {s : UnionFind} (x : Nat) : UFReachable s → x < s.size →
      UFReachable (s.findRoot x).2

theorem ufReachable_inv {s : UnionFind} (h : UFReachable s) : UFInv s := by
  induction h with
  | init n cap => exact init_ufinv n cap
  | union x y _ hx hy ih => exact (union_spec ih hx hy).1
  | find x _ hx ih => exact (findRoot_spec _ ih x hx).2.1

theorem card_filter_eq_count (n : Nat) (f : Nat → Nat) (r : Nat) :
    ((Finset.range n).filter (fun i => f i = r)).card = ((List.range n).map f).count r := by
  induction n with
  | zero => simp
  | succ n ih =>
    rw [Finset.range_succ, Finset.filter_insert, List.range_succ, List.map_append,
      List.count_append]
    by_cases hp : f n = r
    · rw [if_pos hp, Finset.card_insert_of_not_mem (by simp), ih]
      simp [hp]
    · rw [if_neg hp, ih]
      simp [List.count_singleton', hp]

theorem validateAux_spec {uf : UnionFind} (h : UFInv uf) :
    ∀ xs : List Nat, (∀ x ∈ xs, x < uf.size) →
      (validateAux xs uf).1 = xs.map uf.rootOf ∧
      UFInv (validateAux xs uf).2 ∧
      (∀ j, (validateAux xs uf).2.rootOf j = uf.rootOf j) ∧
      (validateAux xs uf).2.size = uf.size ∧
      (validateAux xs uf).2.maxNumPerSet = uf.maxNumPerSet := by
  intro xs
  induction xs generalizing uf with
  | nil =>
    intro _
    exact ⟨rfl, h, fun j => rfl, rfl, rfl⟩
  | cons x xs ih =>
    intro hmem
    obtain ⟨hfst, hinv1, hroots1, _, hsz1, hmax1, _, _⟩ :=
      findRoot_spec uf h x (hmem x (List.mem_cons_self x xs))
    obtain ⟨hfst', hinv', hroots', hsz', hmax'⟩ :=
      ih hinv1 (fun z hz => by rw [hsz1]; exact hmem z (List.mem_cons_of_mem x hz))
    refine ⟨?_, hinv', fun j => (hroots' j).trans (hroots1 j),
      hsz'.trans hsz1, hmax'.trans hmax1⟩
    show (uf.findRoot x).1 :: (validateAux xs (uf.findRoot x).2).1 = (x :: xs).map uf.rootOf
    rw [List.map_cons, hfst, hfst']
    congr 1
    exact List.map_congr_left (fun a _ => hroots1 a)

/-- On an invariant-satisfying state with a configured positive cap, every
component has at most `m` nodes. -/
theorem compOf_card_le {uf : UnionFind} (h : UFInv uf) {m : Nat}
    (hm : uf.maxNumPerSet = some m) (h1 : 1 ≤ m) (r : Nat) :
    (compOf uf.size uf.parents r).card ≤ m := by
  by_cases hroot : r < uf.size ∧ pGet uf.parents r = r
  · have hle := h.csCap m hm r hroot.1 hroot.2
    rw [h.csRoot r hroot.1 hroot.2, max_eq_left h1] at hle
    exact hle
  · have hempty : compOf uf.size uf.parents r = ∅ := by
      rw [Finset.eq_empty_iff_forall_not_mem]
      intro i hi
      simp only [compOf, Finset.mem_filter, Finset.mem_range] at hi
      apply hroot
      refine ⟨?_, ?_⟩
      · rw [← hi.2]
        exact rootOfN_lt h.pinv hi.1
      · rw [← hi.2]
        exact rootOfN_isRoot h.pinv hi.1
    rw [hempty]
    simp

/-- On an invariant-satisfying state with a configured positive cap,
`validate` passes all its assertions. -/
theorem validate_true {uf : UnionFind} (h : UFInv uf) {m : Nat}
    (hm : uf.maxNumPerSet = some m) (h1 : 1 ≤ m) :
    uf.validate.1 = true := by
  obtain ⟨hfst, _, _, _, _⟩ :=
    validateAux_spec h (List.range uf.size) (fun x hx => List.mem_range.mp hx)
  show ((validateAux (List.range uf.size) uf).1.all
    (fun r => (validateAux (List.range uf.size) uf).1.count r ≤ uf.maxNumPerSet.getD 0)) = true
  rw [hfst, hm, List.all_eq_true]
  intro r _
  rw [decide_eq_true_eq]
  show ((List.range uf.size).map uf.rootOf).count r ≤ m
  rw [← card_filter_eq_count uf.size uf.rootOf r]
  exact compOf_card_le h hm h1 r

/-! ### Claims C1 and C9 -/

/-- C1 (counterexample): with a configured cap `m = 0`, a freshly constructed
`UnionFind` of size 1 — with the empty sequence of `union` calls — already has
a component of size `1 > 0`, and `validate` raises an assertion error
(returns `false`): the claim fails for `m = 0`. -/
theorem unionfind_cap_zero_counterexample :
    (UnionFind.init 1 (some 0)).validate.1 = false ∧
      (compOf 1 (UnionFind.init 1 (some 0)).parents 0).card = 1 := by
  constructor
  · rfl
  · rfl

/-- C1 (amended): for every configured cap `m ≥ 1` and every finite sequence
of `union`/`find_root` calls on valid node ids, every component of the
resulting state has size at most `m` and `validate()` raises no assertion
error.  (The amendment `m ≥ 1` is forced: components of size 1 exist at
construction no matter what `union` is called, see the counterexample.) -/
theorem unionfind_cap_invariant (s : UnionFind) (m : Nat) (hreach : UFReachable s)
    (hcap : s.maxNumPerSet = some m) (hm : 1 ≤ m) :
    (∀ r, (compOf s.size s.parents r).card ≤ m) ∧ s.validate.1 = true := by
  have hinv := ufReachable_inv hreach
  exact ⟨compOf_card_le hinv hcap hm, validate_true hinv hcap hm⟩

theorem unionfind_cap_invariant_witness :
    UFReachable ((UnionFind.init 3 (some 2)).union 0 1) ∧
    ((UnionFind.init 3 (some 2)).union 0 1).maxNumPerSet = some 2 ∧
    (∀ r, (compOf ((UnionFind.init 3 (some 2)).union 0 1).size
      ((UnionFind.init 3 (some 2)).union 0 1).parents r).card ≤ 2) ∧
    ((UnionFind.init 3 (some 2)).union 0 1).validate.1 = true := by
  have hreach : UFReachable ((UnionFind.init 3 (some 2)).union 0 1) :=
    UFReachable.union 0 1 (UFReachable.init 3 (some 2)) (by decide) (by decide)
  have hmain := unionfind_cap_invariant ((UnionFind.init 3 (some 2)).union 0 1) 2
    hreach rfl (by decide)
  exact ⟨hreach, rfl, hmain.1, hmain.2⟩

/-- C9: on any reachable state, `find_root(x)` changes no membership: the
value of `find_root(z)` is unchanged by a preceding `find_root(x)` call, and
`find_root` is idempotent. -/
theorem findroot_preserves_membership (s : UnionFind) (hreach : UFReachable s)
    (x z : Nat) (hx : x < s.size) (hz : z < s.size) :
    (((s.findRoot x).2).findRoot z).1 = (s.findRoot z).1 ∧
    (((s.findRoot x).2).findRoot x).1 = (s.findRoot x).1 := by
  have hinv := ufReachable_inv hreach
  obtain ⟨hfst1, hinv1, hroots1, _, hsz1, _, _, _⟩ := findRoot_spec s hinv x hx
  obtain ⟨hfstz, _, _, _, _, _, _, _⟩ :=
    findRoot_spec (s.findRoot x).2 hinv1 z (by rw [hsz1]; exact hz)
  obtain ⟨hfstx, _, _, _, _, _, _, _⟩ :=
    findRoot_spec (s.findRoot x).2 hinv1 x (by rw [hsz1]; exact hx)
  obtain ⟨hfstz0, _, _, _, _, _, _, _⟩ := findRoot_spec s hinv z hz
  constructor
  · rw [hfstz, hfstz0, hroots1 z]
  · rw [hfstx, hfst1, hroots1 x]

theorem findroot_preserves_membership_witness :
    UFReachable ((UnionFind.init 3 (some 2)).union 0 1) ∧ (0 : Nat) < 3 ∧ (2 : Nat) < 3 ∧
    ((((UnionFind.init 3 (some 2)).union 0 1).findRoot 0).2.findRoot 2).1 =
      (((UnionFind.init 3 (some 2)).union 0 1).findRoot 2).1 := by
  have hreach : UFReachable ((UnionFind.init 3 (some 2)).union 0 1) :=
    UFReachable.union 0 1 (UFReachable.init 3 (some 2)) (by decide) (by decide)
  refine ⟨hreach, by decide, by decide, ?_⟩
  exact (findroot_preserves_membership ((UnionFind.init 3 (some 2)).union 0 1)
    hreach 0 2 (by decide) (by decide)).1

/-! ### TrackBuilder (dbarf/geometry/track.py)

`consistent_tracks` is a Python dict keyed by track root ids and is modelled
as an association list with dict semantics (see `aset`/`apop`). -/

structure TrackElement where
  imageId : Int
  point2Didx : Int
deriving DecidableEq

structure TrackBuilder where
  minTrackLength : Nat
  maxTrackLength : Nat
  consistentTracks : List (Int × List TrackElement)
deriving DecidableEq

/-- The grouping loop at the end of `build`: for each element index, find its
(path-compressing) root and append the element to that root's track. -/
def groupTracksLoop (trackElements : List TrackElement) :
    List Nat → UnionFind → List (Int × List TrackElement) →
      List (Int × List TrackElement) × UnionFind
  | [], uf, acc => (acc, uf)
  | t :: ts, uf, acc =>
    let r := uf.findRoot t
    groupTracksLoop trackElements ts r.2
      (aset acc (r.1 : Int)
        (((alookup acc (r.1 : Int)).getD []) ++ [trackElements.getD t ⟨0, 0⟩]))

/-- `TrackBuilder.build`: a capped union-find over the element indices, union
of every pair, `validate()` (an assertion failure aborts, modelled as `none`),
then grouping by root. -/
def TrackBuilder.build (tb : TrackBuilder) (trackElements : List TrackElement)
    (trackElementPairs : List (Nat × Nat)) : Option TrackBuilder :=
  let n := trackElements.length
  let finder0 := UnionFind.init n (some tb.maxTrackLength)
  let finder1 := trackElementPairs.foldl (fun f p => f.union p.1 p.2) finder0
  let v := finder1.validate
  if v.1 then
    some { tb with consistentTracks :=
      (groupTracksLoop trackElements (List.range n) v.2 tb.consistentTracks).1 }
  else none

/-- The per-track element scan of `filter`: drop every element whose
`image_id` already occurred earlier in the track. -/
def dedupeKeepFirst (seen : List Int) : List TrackElement → List TrackElement
  | [] => []
  | e :: es =>
    if e.imageId ∈ seen then dedupeKeepFirst seen es
    else e :: dedupeKeepFirst (e.imageId :: seen) es

/-- The key loop of `filter` over the snapshot of the dict's keys. -/
def filterLoop (minLen : Nat) : List Int → List (Int × List TrackElement) →
    List (Int × List TrackElement)
  | [], m => m
  | k :: ks, m =>
    match alookup m k with
    | none => filterLoop minLen ks m
    | some es =>
      if es.length < minLen then filterLoop minLen ks (apop m k)
      else
        let es' := dedupeKeepFirst [] es
        if es.length ≠ es'.length then
          if minLen ≤ es'.length then filterLoop minLen ks (aset (apop m k) k es')
          else filterLoop minLen ks (apop m k)
        else filterLoop minLen ks m

/-- `TrackBuilder.filter`. -/
def TrackBuilder.filter (tb : TrackBuilder) : TrackBuilder :=
  { tb with consistentTracks :=
      filterLoop tb.minTrackLength (tb.consistentTracks.map Prod.fst) tb.consistentTracks }

/-! #### Association-list facts used by the track proofs -/

theorem aset_mem {κ α : Type} [DecidableEq κ] (l : List (κ × α)) (k : κ) (v : α)
    (p : κ × α) (hp : p ∈ aset l k v) : p ∈ l ∨ p = (k, v) := by
  induction l with
  | nil =>
    simp only [aset, List.mem_singleton] at hp
    exact Or.inr hp
  | cons q rest ih =>
    obtain ⟨k₀, v₀⟩ := q
    by_cases h₀ : k₀ = k
    · simp only [aset, if_pos h₀] at hp
      rcases List.mem_cons.mp hp with hp | hp
      · exact Or.inr hp
      · exact Or.inl (List.mem_cons_of_mem _ hp)
    · simp only [aset, if_neg h₀] at hp
      rcases List.mem_cons.mp hp with hp | hp
      · exact Or.inl (hp ▸ List.mem_cons_self _ _)
      · rcases ih hp with hp | hp
        · exact Or.inl (List.mem_cons_of_mem _ hp)
        · exact Or.inr hp

theorem aset_keys_mem {κ α : Type} [DecidableEq κ] (l : List (κ × α)) (k : κ) (v : α)
    (j : κ) (hj : j ∈ (aset l k v).map Prod.fst) : j ∈ l.map Prod.fst ∨ j = k := by
  rcases List.mem_map.mp hj with ⟨p, hp, hpj⟩
  rcases aset_mem l k v p hp with hp | hp
  · exact Or.inl (hpj ▸ List.mem_map_of_mem Prod.fst hp)
  · right
    rw [← hpj, hp]

theorem aset_keys_nodup {κ α : Type} [DecidableEq κ] (l : List (κ × α)) (k : κ) (v : α)
    (hnd : (l.map Prod.fst).Nodup) : ((aset l k v).map Prod.fst).Nodup := by
  induction l with
  | nil => simp [aset]
  | cons q rest ih =>
    obtain ⟨k₀, v₀⟩ := q
    simp only [List.map_cons, List.nodup_cons] at hnd
    by_cases h₀ : k₀ = k
    · have haset : aset ((k₀, v₀) :: rest) k v = (k, v) :: rest := by
        simp [aset, h₀]
      rw [haset, List.map_cons, List.nodup_cons]
      exact ⟨h₀ ▸ hnd.1, hnd.2⟩
    · simp only [aset, if_neg h₀, List.map_cons, List.nodup_cons]
      refine ⟨?_, ih hnd.2⟩
      intro hmem
      rcases aset_keys_mem rest k v k₀ hmem with hmem | hmem
      · exact hnd.1 hmem
      · exact h₀ hmem

theorem alookup_mem {κ α : Type} [DecidableEq κ] (l : List (κ × α)) (k : κ) (v : α)
    (h : alookup l k = some v) : (k, v) ∈ l := by
  induction l with
  | nil => simp [alookup] at h
  | cons q rest ih =>
    rw [alookup_cons] at h
    by_cases hq : q.1 = k
    · rw [if_pos hq] at h
      injection h with h
      have hqv : q = (k, v) := Prod.ext hq h
      rw [← hqv]
      exact List.mem_cons_self _ _
    · rw [if_neg hq] at h
      exact List.mem_cons_of_mem _ (ih h)

/-! #### Deduplication facts -/

theorem dedupe_sublist (seen : List Int) (es : List TrackElement) :
    (dedupeKeepFirst seen es).Sublist es := by
  induction es generalizing seen with
  | nil => simp [dedupeKeepFirst]
  | cons e es ih =>
    by_cases hmem : e.imageId ∈ seen
    · simp only [dedupeKeepFirst, if_pos hmem]
      exact (ih seen).trans (List.sublist_cons_self e es)
    · simp only [dedupeKeepFirst, if_neg hmem]
      exact List.Sublist.cons₂ e (ih (e.imageId :: seen))

theorem dedupe_spec (es : List TrackElement) :
    ∀ seen : List Int,
      (∀ e ∈ dedupeKeepFirst seen es, e.imageId ∉ seen) ∧
      ((dedupeKeepFirst seen es).map (fun e => e.imageId)).Nodup := by
  induction es with
  | nil => intro seen; simp [dedupeKeepFirst]
  | cons e es ih =>
    intro seen
    by_cases hmem : e.imageId ∈ seen
    · simp only [dedupeKeepFirst, if_pos hmem]
      exact ih seen
    · simp only [dedupeKeepFirst, if_neg hmem]
      obtain ⟨hnotin, hnd⟩ := ih (e.imageId :: seen)
      constructor
      · intro f hf
        rcases List.mem_cons.mp hf with hf | hf
        · rw [hf]
          exact hmem
        · intro hfs
          exact (hnotin f hf) (List.mem_cons_of_mem _ hfs)
      · rw [List.map_cons, List.nodup_cons]
        refine ⟨?_, hnd⟩
        intro hin
        rcases List.mem_map.mp hin with ⟨f, hf, hfe⟩
        exact (hnotin f hf) (hfe ▸ List.mem_cons_self _ _)

theorem dedupe_eq_of_length (es : List TrackElement)
    (h : es.length = (dedupeKeepFirst [] es).length) : dedupeKeepFirst [] es = es :=
  (dedupe_sublist [] es).eq_of_length h.symm

/-! #### The grouping loop computes the pure root partition -/

/-- Compression-free version of the grouping loop, used only in proofs. -/
def groupPure (els : List TrackElement) (root : Nat → Nat) :
    List Nat → List (Int × List TrackElement) → List (Int × List TrackElement)
  | [], acc => acc
  | t :: ts, acc =>
    groupPure els root ts
      (aset acc (root t : Int)
        (((alookup acc (root t : Int)).getD []) ++ [els.getD t ⟨0, 0⟩]))

theorem groupLoop_eq_pure (els : List TrackElement) :
    ∀ (ts : List Nat) (uf : UnionFind), UFInv uf → (∀ t ∈ ts, t < uf.size) →
      ∀ acc, (groupTracksLoop els ts uf acc).1 = groupPure els uf.rootOf ts acc := by
  intro ts
  induction ts with
  | nil => intro uf _ _ acc; rfl
  | cons t ts ih =>
    intro uf h hts acc
    obtain ⟨hfst, hinv1, hroots1, _, hsz1, _, _, _⟩ :=
      findRoot_spec uf h t (hts t (List.mem_cons_self t ts))
    have hfuns : (uf.findRoot t).2.rootOf = uf.rootOf := funext hroots1
    show (groupTracksLoop els ts (uf.findRoot t).2 _).1 = _
    rw [ih (uf.findRoot t).2 hinv1
      (fun z hz => by rw [hsz1]; exact hts z (List.mem_cons_of_mem t hz)), hfuns]
    show groupPure els uf.rootOf ts
      (aset acc ((uf.findRoot t).1 : Int) _) = _
    rw [hfst]
    rfl

theorem groupPure_keys_nodup (els : List TrackElement) (root : Nat → Nat) :
    ∀ (ts : List Nat) (acc : List (Int × List TrackElement)),
      (acc.map Prod.fst).Nodup → ((groupPure els root ts acc).map Prod.fst).Nodup := by
  intro ts
  induction ts with
  | nil => intro acc h; exact h
  | cons t ts ih =>
    intro acc h
    exact ih _ (aset_keys_nodup _ _ _ h)

theorem groupPure_lookup_len (els : List TrackElement) (root : Nat → Nat) :
    ∀ (ts : List Nat) (acc : List (Int × List TrackElement)) (k : Int),
      ((alookup (groupPure els root ts acc) k).getD []).length =
        ((alookup acc k).getD []).length + ts.countP (fun t => (root t : Int) = k) := by
  intro ts
  induction ts with
  | nil => intro acc k; simp [groupPure]
  | cons t ts ih =>
    intro acc k
    show ((alookup (groupPure els root ts _) k).getD []).length = _
    rw [ih]
    by_cases hk : (root t : Int) = k
    · rw [hk, alookup_aset_self]
      have hcnt : (t :: ts).countP (fun t => decide ((root t : Int) = k)) =
          ts.countP (fun t => decide ((root t : Int) = k)) + 1 := by
        rw [List.countP_cons]
        simp [hk]
      rw [hcnt]
      simp only [Option.getD_some, List.length_append, List.length_singleton]
      omega
    · rw [alookup_aset_ne acc ((root t : Nat) : Int) k
        (((alookup acc ((root t : Nat) : Int)).getD []) ++
          [els.getD t ⟨0, 0⟩]) hk]
      have hcnt : (t :: ts).countP (fun t => decide ((root t : Int) = k)) =
          ts.countP (fun t => decide ((root t : Int) = k)) := by
        rw [List.countP_cons]
        simp [hk]
      rw [hcnt]

/-- From a passing `validate`, every root value's multiplicity among all
nodes' roots is bounded by the cap. -/
theorem validate_bound {uf : UnionFind} (h : UFInv uf) {m : Nat}
    (hm : uf.maxNumPerSet = some m) (htrue : uf.validate.1 = true) :
    ∀ r : Nat, ((List.range uf.size).map uf.rootOf).count r ≤ m := by
  obtain ⟨hfst, _, _, _, _⟩ :=
    validateAux_spec h (List.range uf.size) (fun x hx => List.mem_range.mp hx)
  have htrue' : (((List.range uf.size).map uf.rootOf).all
      (fun r => ((List.range uf.size).map uf.rootOf).count r ≤ uf.maxNumPerSet.getD 0)) =
      true := by
    have hv : uf.validate.1 = ((validateAux (List.range uf.size) uf).1.all
      (fun r => (validateAux (List.range uf.size) uf).1.count r ≤
        uf.maxNumPerSet.getD 0)) := rfl
    rw [hv, hfst] at htrue
    exact htrue
  rw [List.all_eq_true] at htrue'
  intro r
  by_cases hr : r ∈ (List.range uf.size).map uf.rootOf
  · have := htrue' r hr
    rw [decide_eq_true_eq, hm] at this
    exact this
  · rw [List.count_eq_zero_of_not_mem hr]
    omega

/-- The per-element count of a root value, as an integer key. -/
theorem countP_root_le {uf : UnionFind} (h : UFInv uf) {m : Nat}
    (hm : uf.maxNumPerSet = some m) (htrue : uf.validate.1 = true) (k : Int) :
    (List.range uf.size).countP (fun t => (uf.rootOf t : Int) = k) ≤ m := by
  rcases k with r | r
  · have hcnt : (List.range uf.size).countP (fun t => (uf.rootOf t : Int) = Int.ofNat r) =
        (List.range uf.size).countP (fun t => uf.rootOf t = r) := by
      apply List.countP_congr
      intro t _
      simp [Int.ofNat_eq_natCast, Int.natCast_inj]
    rw [hcnt]
    have hvb := validate_bound h hm htrue r
    have hb : (List.range uf.size).countP (fun t => uf.rootOf t = r) =
        List.count r (List.map uf.rootOf (List.range uf.size)) := by
      rw [List.count_eq_countP, List.countP_map]
      apply List.countP_congr
      intro t _
      simp
    rw [hb]
    exact hvb
  · have hcnt : (List.range uf.size).countP
        (fun t => (uf.rootOf t : Int) = Int.negSucc r) = 0 := by
      rw [List.countP_eq_zero]
      intro t _
      simp
    rw [hcnt]
    omega

/-! #### The filter invariant -/

/-- The invariant claimed for tracks surviving `filter`. -/
def GoodTrack (minLen maxLen : Nat) (p : Int × List TrackElement) : Prop :=
  (p.2.map (fun e => e.imageId)).Nodup ∧ minLen ≤ p.2.length ∧ p.2.length ≤ maxLen

theorem filterLoop_good (minLen maxLen : Nat) :
    ∀ (ks : List Int) (m : List (Int × List TrackElement)),
      (m.map Prod.fst).Nodup →
      (∀ p ∈ m, p.2.length ≤ maxLen) →
      (∀ p ∈ m, p.1 ∉ ks → GoodTrack minLen maxLen p) →
      ∀ p ∈ filterLoop minLen ks m, GoodTrack minLen maxLen p := by
  intro ks
  induction ks with
  | nil =>
    intro m _ _ hgood p hp
    exact hgood p hp (List.not_mem_nil p.1)
  | cons k ks ih =>
    intro m hnd hmax hgood
    have hpopcase : ∀ p ∈ filterLoop minLen ks (apop m k), GoodTrack minLen maxLen p := by
      apply ih (apop m k) (List.Nodup.sublist (apop_keys_sublist m k) hnd)
        (fun p hp => hmax p (apop_mem m k p hp))
      intro p hp hpks
      have hpk : p.1 ≠ k := by
        intro he
        have hmem : p.1 ∈ (apop m k).map Prod.fst := List.mem_map_of_mem Prod.fst hp
        rw [he] at hmem
        exact (apop_key_not_mem m k hnd) hmem
      apply hgood p (apop_mem m k p hp)
      intro hmem
      rcases List.mem_cons.mp hmem with he | he
      · exact hpk he
      · exact hpks he
    cases halk : alookup m k with
    | none =>
      simp only [filterLoop, halk]
      apply ih m hnd hmax
      intro p hp hpks
      apply hgood p hp
      intro hpk
      rcases List.mem_cons.mp hpk with he | he
      · exact (mem_of_alookup_isNone m k halk p hp) he
      · exact hpks he
    | some es =>
      have hkes : (k, es) ∈ m := alookup_mem m k es halk
      simp only [filterLoop, halk]
      by_cases hlt : es.length < minLen
      · rw [if_pos hlt]
        exact hpopcase
      · rw [if_neg hlt]
        by_cases hneq : es.length ≠ (dedupeKeepFirst [] es).length
        · rw [if_pos hneq]
          by_cases hre : minLen ≤ (dedupeKeepFirst [] es).length
          · rw [if_pos hre]
            have hnd' := List.Nodup.sublist (apop_keys_sublist m k) hnd
            apply ih (aset (apop m k) k (dedupeKeepFirst [] es))
              (aset_keys_nodup _ _ _ hnd')
            · intro p hp
              rcases aset_mem _ _ _ p hp with hp' | hp'
              · exact hmax p (apop_mem m k p hp')
              · rw [hp']
                exact le_trans (dedupe_sublist [] es).length_le (hmax (k, es) hkes)
            · intro p hp hpks
              rcases aset_mem _ _ _ p hp with hp' | hp'
              · have hpk : p.1 ≠ k := by
                  intro he
                  have hmem : p.1 ∈ (apop m k).map Prod.fst :=
                    List.mem_map_of_mem Prod.fst hp'
                  rw [he] at hmem
                  exact (apop_key_not_mem m k hnd) hmem
                apply hgood p (apop_mem m k p hp')
                intro hmem
                rcases List.mem_cons.mp hmem with he | he
                · exact hpk he
                · exact hpks he
              · rw [hp']
                exact ⟨(dedupe_spec es []).2, hre,
                  le_trans (dedupe_sublist [] es).length_le (hmax (k, es) hkes)⟩
          · rw [if_neg hre]
            exact hpopcase
        · rw [if_neg hneq]
          apply ih m hnd hmax
          intro p hp hpks
          by_cases hpk : p.1 = k
          · have hlp : alookup m p.1 = some p.2 := alookup_of_mem_nodup m hnd p hp
            rw [hpk, halk] at hlp
            injection hlp with hlp
            push_neg at hneq
            have hdd : dedupeKeepFirst [] es = es := dedupe_eq_of_length es hneq
            refine ⟨?_, ?_, ?_⟩
            · rw [← hlp, ← hdd]
              exact (dedupe_spec es []).2
            · rw [← hlp]
              omega
            · rw [← hlp]
              exact hmax (k, es) hkes
          · apply hgood p hp
            intro hmem
            rcases List.mem_cons.mp hmem with he | he
            · exact hpk he
            · exact hpks he

theorem foldl_union_reachable (pairs : List (Nat × Nat)) :
    ∀ uf : UnionFind, UFReachable uf →
      (∀ p ∈ pairs, p.1 < uf.size ∧ p.2 < uf.size) →
      UFReachable (pairs.foldl (fun f p => f.union p.1 p.2) uf) ∧
      (pairs.foldl (fun f p => f.union p.1 p.2) uf).size = uf.size ∧
      (pairs.foldl (fun f p => f.union p.1 p.2) uf).maxNumPerSet = uf.maxNumPerSet := by
  induction pairs with
  | nil =>
    intro uf h _
    exact ⟨h, rfl, rfl⟩
  | cons p ps ih =>
    intro uf h hp
    have h1 := hp p (List.mem_cons_self p ps)
    have hr : UFReachable (uf.union p.1 p.2) := UFReachable.union p.1 p.2 h h1.1 h1.2
    have hspec := union_spec (ufReachable_inv h) h1.1 h1.2
    obtain ⟨a, b, c⟩ := ih (uf.union p.1 p.2) hr
      (fun q hq => by rw [hspec.2.1]; exact hp q (List.mem_cons_of_mem p hq))
    exact ⟨a, b.trans hspec.2.1, c.trans hspec.2.2⟩

/-- C3: after a successful `build` on a fresh `TrackBuilder` (all pairs being
valid element indices) followed by `filter`, every surviving track has
pairwise-distinct image ids and length within
`[min_track_length, max_track_length]`. -/
theorem track_build_filter_invariant (minL maxL : Nat) (els : List TrackElement)
    (pairs : List (Nat × Nat)) (tb' : TrackBuilder)
    (hpairs : ∀ p ∈ pairs, p.1 < els.length ∧ p.2 < els.length)
    (hbuild : (TrackBuilder.mk minL maxL []).build els pairs = some tb') :
    ∀ p ∈ tb'.filter.consistentTracks,
      (p.2.map (fun e => e.imageId)).Nodup ∧
      minL ≤ p.2.length ∧ p.2.length ≤ maxL := by
  simp only [TrackBuilder.build] at hbuild
  by_cases hv : (pairs.foldl (fun f p => f.union p.1 p.2)
      (UnionFind.init els.length (some maxL))).validate.1 = true
  · rw [if_pos hv] at hbuild
    injection hbuild with hbuild
    obtain ⟨hreach1, hsz1, hmax1⟩ := foldl_union_reachable pairs
      (UnionFind.init els.length (some maxL)) (UFReachable.init _ _)
      (fun q hq => hpairs q hq)
    have hinv1 := ufReachable_inv hreach1
    set finder1 := pairs.foldl (fun f p => f.union p.1 p.2)
      (UnionFind.init els.length (some maxL)) with hf1
    have hszf : finder1.size = els.length := hsz1
    have hmaxf : finder1.maxNumPerSet = some maxL := hmax1
    obtain ⟨hfstV, hinvV, hrootsV, hszV, hmaxV⟩ :=
      validateAux_spec hinv1 (List.range finder1.size)
        (fun x hx => List.mem_range.mp hx)
    set v2 := (validateAux (List.range finder1.size) finder1).2 with hv2
    have hv2inv : UFInv v2 := hinvV
    have hv2sz : v2.size = els.length := hszV.trans hszf
    have htracks : tb'.consistentTracks =
        groupPure els finder1.rootOf (List.range els.length) [] := by
      rw [← hbuild]
      show (groupTracksLoop els (List.range els.length) v2 []).1 = _
      rw [groupLoop_eq_pure els (List.range els.length) v2 hv2inv
        (fun t ht => by rw [hv2sz]; exact List.mem_range.mp ht)]
      rw [funext hrootsV]
    have hndkeys : (tb'.consistentTracks.map Prod.fst).Nodup := by
      rw [htracks]
      exact groupPure_keys_nodup els finder1.rootOf (List.range els.length) []
        (by simp)
    have hmaxEntries : ∀ p ∈ tb'.consistentTracks, p.2.length ≤ maxL := by
      intro p hp
      have hlp : alookup tb'.consistentTracks p.1 = some p.2 :=
        alookup_of_mem_nodup _ hndkeys p hp
      have hlen : ((alookup tb'.consistentTracks p.1).getD []).length =
          (List.range els.length).countP
            (fun t => (finder1.rootOf t : Int) = p.1) := by
        rw [htracks, groupPure_lookup_len]
        simp [alookup]
      rw [hlp] at hlen
      simp only [Option.getD_some] at hlen
      rw [hlen, ← hszf]
      exact countP_root_le hinv1 hmaxf hv p.1
    have hminL : tb'.minTrackLength = minL := by rw [← hbuild]
    have hfilter : tb'.filter.consistentTracks =
        filterLoop minL (tb'.consistentTracks.map Prod.fst) tb'.consistentTracks := by
      show filterLoop tb'.minTrackLength _ _ = _
      rw [hminL]
    rw [hfilter]
    intro p hp
    exact filterLoop_good minL maxL (tb'.consistentTracks.map Prod.fst)
      tb'.consistentTracks hndkeys hmaxEntries
      (fun q hq hqk => absurd (List.mem_map_of_mem Prod.fst hq) hqk) p hp
  · rw [if_neg hv] at hbuild
    cases hbuild

/-- Three observations of one 3D point in three distinct images. -/
def els0 : List TrackElement := [⟨1, 0⟩, ⟨2, 0⟩, ⟨3, 0⟩]

theorem track_build_filter_invariant_witness :
    ((TrackBuilder.mk 3 40 []).build els0 [(0, 1), (1, 2)] =
      some (TrackBuilder.mk 3 40 [(0, els0)])) ∧
    ((0, els0) ∈ (TrackBuilder.mk 3 40 [(0, els0)]).filter.consistentTracks) ∧
    ((els0.map (fun e => e.imageId)).Nodup ∧ 3 ≤ els0.length ∧ els0.length ≤ 40) :=
  ⟨by decide, by decide,
    track_build_filter_invariant 3 40 els0 [(0, 1), (1, 2)]
      (TrackBuilder.mk 3 40 [(0, els0)]) (by decide) (by decide)
      (0, els0) (by decide)⟩

/-! #### Track file serialization

The text file is modelled as a list of lines, each line a list of integer
tokens (the decimal rendering/parsing of an integer by `f.write`/`int` is
abstracted by the integer itself). -/

/-- The lines written by `write_to_file`: per track a header line
`root_id count` and a data line of `image_id point2D_idx` pairs. -/
def writeLines (l : List (Int × List TrackElement)) : List (List Int) :=
  l.foldr
    (fun p acc => [p.1, (p.2.length : Int)] ::
      (p.2.flatMap (fun e => [e.imageId, e.point2Didx])) :: acc) []

/-- `TrackBuilder.write_to_file`. -/
def TrackBuilder.writeToFile (tb : TrackBuilder) : List (List Int) :=
  writeLines tb.consistentTracks

/-- The inner `for i in range(num_track_elements)` loop of `read_from_file`:
reads tokens `2*i` and `2*i+1` of the data line (an out-of-range access, an
`IndexError` in Python, is `none`), filtering by the optional image-id
allow-list after the access. -/
def parseElems (imageIds : Option (List Int)) (dataLine : List Int) :
    Nat → Nat → Option (List TrackElement)
  | _, 0 => some []
  | i, c + 1 =>
    match dataLine[2 * i]?, dataLine[2 * i + 1]? with
    | some img, some pt =>
      match parseElems imageIds dataLine (i + 1) c with
      | none => none
      | some es =>
        match imageIds with
        | some ids => if img ∈ ids then some (⟨img, pt⟩ :: es) else some es
        | none => some (⟨img, pt⟩ :: es)
    | _, _ => none

/-- The `while line and len(line) > 1` loop of `read_from_file`: a header
line is followed by its data line (at end of file, `readline` yields the
empty string, i.e. no tokens). -/
def readFromFileLoop (imageIds : Option (List Int)) :
    List (List Int) → List (Int × List TrackElement) →
      Option (List (Int × List TrackElement))
  | [], m => some m
  | [line], m =>
    if line.length > 1 then
      match parseElems imageIds [] 0 (line.getD 1 0).toNat with
      | none => none
      | some es =>
        readFromFileLoop imageIds [] (aset (aset m (line.getD 0 0) [])
          (line.getD 0 0) es)
    else some m
  | line :: dataLine :: rest, m =>
    if line.length > 1 then
      match parseElems imageIds dataLine 0 (line.getD 1 0).toNat with
      | none => none
      | some es =>
        readFromFileLoop imageIds rest (aset (aset m (line.getD 0 0) [])
          (line.getD 0 0) es)
    else some m

/-- `TrackBuilder.read_from_file`. -/
def TrackBuilder.readFromFile (tb : TrackBuilder) (lines : List (List Int))
    (imageIds : Option (List Int)) : Option TrackBuilder :=
  (readFromFileLoop imageIds lines tb.consistentTracks).map
    (fun m => { tb with consistentTracks := m })

theorem aset_append_of_not_mem {κ α : Type} [DecidableEq κ]
    (l : List (κ × α)) (k : κ) (v : α) (h : k ∉ l.map Prod.fst) :
    aset l k v = l ++ [(k, v)] := by
  induction l with
  | nil => rfl
  | cons q rest ih =>
    obtain ⟨q1, q2⟩ := q
    simp only [List.map_cons, List.mem_cons] at h
    push_neg at h
    simp only [aset, List.cons_append]
    rw [if_neg (fun he => h.1 he.symm), ih h.2]

theorem flat_getElem (es : List TrackElement) :
    ∀ i, ((es.flatMap (fun e => [e.imageId, e.point2Didx]))[2 * i]? =
        (es[i]?).map (fun e => e.imageId)) ∧
      ((es.flatMap (fun e => [e.imageId, e.point2Didx]))[2 * i + 1]? =
        (es[i]?).map (fun e => e.point2Didx)) := by
  induction es with
  | nil => intro i; simp
  | cons e es ih =>
    intro i
    cases i with
    | zero => simp [List.flatMap_cons]
    | succ i =>
      have h2 : 2 * (i + 1) = (2 * i + 1) + 1 := by omega
      rw [List.flatMap_cons]
      constructor
      · rw [h2]
        show ((e.imageId :: e.point2Didx :: es.flatMap _)[2 * i + 1 + 1]?) = _
        simp only [List.getElem?_cons_succ]
        exact (ih i).1
      · rw [h2]
        show ((e.imageId :: e.point2Didx :: es.flatMap _)[2 * i + 1 + 1 + 1]?) = _
        simp only [List.getElem?_cons_succ]
        exact (ih i).2

theorem parse_flat (es : List TrackElement) :
    ∀ (c i : Nat), i + c = es.length →
      parseElems none (es.flatMap (fun e => [e.imageId, e.point2Didx])) i c =
        some (es.drop i) := by
  intro c
  induction c with
  | zero =>
    intro i hi
    have hieq : i = es.length := by omega
    subst hieq
    simp [parseElems, List.drop_length]
  | succ c ih =>
    intro i hi
    have hilt : i < es.length := by omega
    have hflat := flat_getElem es i
    simp only [parseElems, hflat.1, hflat.2, List.getElem?_eq_getElem hilt,
      Option.map_some']
    rw [ih (i + 1) (by omega), List.drop_eq_getElem_cons hilt]

theorem aset_append_notin {κ α : Type} [DecidableEq κ]
    (l1 l2 : List (κ × α)) (k : κ) (v : α) (h : k ∉ l1.map Prod.fst) :
    aset (l1 ++ l2) k v = l1 ++ aset l2 k v := by
  induction l1 with
  | nil => rfl
  | cons q rest ih =>
    obtain ⟨q1, q2⟩ := q
    simp only [List.map_cons, List.mem_cons] at h
    push_neg at h
    simp only [List.cons_append, aset]
    rw [if_neg (fun he => h.1 he.symm)]
    show (q1, q2) :: aset (rest ++ l2) k v = (q1, q2) :: (rest ++ aset l2 k v)
    rw [ih h.2]

theorem readLoop_write :
    ∀ (L m0 : List (Int × List TrackElement)),
      (L.map Prod.fst).Nodup →
      (∀ k ∈ L.map Prod.fst, k ∉ m0.map Prod.fst) →
      readFromFileLoop none (writeLines L) m0 = some (m0 ++ L) := by
  intro L
  induction L with
  | nil =>
    intro m0 _ _
    simp [writeLines, readFromFileLoop]
  | cons p T ih =>
    intro m0 hnd hdisj
    obtain ⟨k, es⟩ := p
    simp only [List.map_cons, List.nodup_cons] at hnd
    have hkm0 : k ∉ m0.map Prod.fst := by
      apply hdisj
      simp
    show readFromFileLoop none ([k, (es.length : Int)] ::
      (es.flatMap (fun e => [e.imageId, e.point2Didx])) :: writeLines T) m0 = _
    rw [readFromFileLoop, if_pos (by simp)]
    have hparse : parseElems none
        (es.flatMap (fun e => [e.imageId, e.point2Didx]))
        0 (([k, (es.length : Int)].getD 1 0)).toNat = some es := by
      have h1 : (([k, (es.length : Int)].getD 1 0)).toNat = es.length := by
        show ((es.length : Int)).toNat = es.length
        exact Int.toNat_natCast es.length
      rw [h1, parse_flat es es.length 0 (by omega), List.drop_zero]
    rw [hparse]
    show readFromFileLoop none (writeLines T) (aset (aset m0 k []) k es) =
      some (m0 ++ (k, es) :: T)
    have haset : aset (aset m0 k []) k es = m0 ++ [(k, es)] := by
      rw [aset_append_of_not_mem m0 k [] hkm0,
        aset_append_notin m0 [(k, [])] k es hkm0]
      simp [aset]
    rw [haset]
    rw [ih (m0 ++ [(k, es)]) hnd.2]
    · simp
    · intro k' hk'
      simp only [List.map_append, List.mem_append, List.map_cons, List.map_nil,
        List.mem_singleton]
      push_neg
      constructor
      · exact hdisj k' (List.mem_cons_of_mem _ hk')
      · intro he
        exact hnd.1 (he ▸ hk')

/-- C7: `write_to_file` followed by `read_from_file` with no image-id filter
on a fresh `TrackBuilder` reproduces exactly the same root → elements
mapping. -/
theorem track_write_read_roundtrip (tb : TrackBuilder)
    (hnd : (tb.consistentTracks.map Prod.fst).Nodup) :
    (TrackBuilder.mk tb.minTrackLength tb.maxTrackLength []).readFromFile
      tb.writeToFile none =
      some (TrackBuilder.mk tb.minTrackLength tb.maxTrackLength
        tb.consistentTracks) := by
  show (readFromFileLoop none (writeLines tb.consistentTracks) []).map _ = _
  rw [readLoop_write tb.consistentTracks [] hnd (by simp)]
  rfl

/-- Two valid tracks with distinct roots, for the round-trip witness. -/
def tbRT : TrackBuilder :=
  ⟨3, 40, [(0, els0), (7, [⟨4, 5⟩, ⟨6, 7⟩, ⟨8, 9⟩])]⟩

theorem track_write_read_roundtrip_witness :
    ((tbRT.consistentTracks.map Prod.fst).Nodup) ∧
    (TrackBuilder.mk tbRT.minTrackLength tbRT.maxTrackLength []).readFromFile
      tbRT.writeToFile none =
      some (TrackBuilder.mk tbRT.minTrackLength tbRT.maxTrackLength
        tbRT.consistentTracks) :=
  ⟨by decide, track_write_read_roundtrip tbRT (by decide)⟩

/-- A filtered-style track: three elements with distinct image ids. -/
def tbC10 : TrackBuilder := ⟨3, 40, [(5, [⟨100, 0⟩, ⟨101, 1⟩, ⟨102, 2⟩])]⟩

/-- C10: reading a written track file against an image-id allow-list that
excludes the track's images leaves a track with fewer than
`min_track_length` elements — here an empty one — because the track key is
inserted before element-level filtering and reading performs no length
check. -/
theorem read_with_filter_keeps_short_tracks :
    (TrackBuilder.mk 3 40 []).readFromFile tbC10.writeToFile (some [7]) =
      some (TrackBuilder.mk 3 40 [(5, [])]) ∧
    ([] : List TrackElement).length <
      (TrackBuilder.mk 3 40 [(5, [])]).minTrackLength :=
  ⟨by decide, by decide⟩

/-! ### Edge classification (dbarf/pose_util.py, `_load_view_graph`)

`PoseInitializer.__init__` fixes `self.thresh_rot_low, self.thresh_rot_high
= 5.0, 15.0`.  `_load_view_graph` initializes each edge's inlier mask to 0.5,
then overwrites with 1.0 where the rotation error (degrees) is strictly below
the low threshold and with 0.0 where it is strictly above the high one. -/

def threshRotLow : ℚ := 5

def threshRotHigh : ℚ := 15

/-- The inlier mask assigned to an edge with rotation-angle error `rotDeg`
degrees (the scalar content of the vectorized mask assignment). -/
def edgeInlierMask (rotDeg : ℚ) : ℚ :=
  let v : ℚ := 1/2
  let v := if rotDeg < threshRotLow then 1 else v
  if rotDeg > threshRotHigh then 0 else v

/-- C4: inlier masks are 1.0 strictly below 5°, 0.0 strictly above 15°, and
0.5 in the closed band `[5°, 15°]`; in particular both boundary values 5.0
and 15.0 are classified 0.5. -/
theorem edge_classification_boundary (e : ℚ) :
    (e < 5 → edgeInlierMask e = 1) ∧
    (e > 15 → edgeInlierMask e = 0) ∧
    (5 ≤ e → e ≤ 15 → edgeInlierMask e = 1/2) ∧
    edgeInlierMask 5 = 1/2 ∧ edgeInlierMask 15 = 1/2 := by
  refine ⟨?_, ?_, ?_, by norm_num [edgeInlierMask, threshRotLow, threshRotHigh],
    by norm_num [edgeInlierMask, threshRotLow, threshRotHigh]⟩
  · intro h
    have h' : ¬ e > 15 := by linarith
    simp [edgeInlierMask, threshRotLow, threshRotHigh, h, h']
  · intro h
    simp [edgeInlierMask, threshRotLow, threshRotHigh, h]
  · intro h1 h2
    have h' : ¬ e < 5 := by linarith
    have h'' : ¬ e > 15 := by linarith
    simp [edgeInlierMask, threshRotLow, threshRotHigh, h', h'']

theorem edge_classification_boundary_witness :
    edgeInlierMask 4 = 1 ∧ edgeInlierMask 16 = 0 ∧ edgeInlierMask 10 = 1/2 :=
  ⟨(edge_classification_boundary 4).1 (by norm_num),
   (edge_classification_boundary 16).2.1 (by norm_num),
   (edge_classification_boundary 10).2.2.1 (by norm_num) (by norm_num)⟩

/-! ### View-graph edge insertion (dbarf/pose_util.py, `_load_view_graph`)

The final loop of `_load_view_graph`: each candidate edge (already
canonicalized to `a < b` by the `to_keep` filter upstream) is looked up in
the match-count table; absent edges are skipped, present ones are stored as a
`TwoViewGeometry` record and inserted into the graph with the match count as
integer weight.  Relative poses stay an opaque payload `α` (torch tensors in
the source); `relPoses` and `inliers` are the index-aligned arrays
`relative_poses.data` and `edge_inliers`. -/

structure TwoViewGeometry (α : Type) where
  relPose : α
  numMatches : Nat
  inlierMask : ℚ
deriving DecidableEq

def loadViewGraphLoop {α : Type} (relPoses : List α) (dflt : α) (inliers : List ℚ)
    (tbl : List ((Nat × Nat) × Nat)) :
    Nat → List (Nat × Nat) →
      List ((Nat × Nat) × TwoViewGeometry α) × List ((Nat × Nat) × Int) →
      List ((Nat × Nat) × TwoViewGeometry α) × List ((Nat × Nat) × Int)
  | _, [], acc => acc
  | i, e :: rest, acc =>
    match alookup tbl e with
    | none => loadViewGraphLoop relPoses dflt inliers tbl (i + 1) rest acc
    | some c =>
      loadViewGraphLoop relPoses dflt inliers tbl (i + 1) rest
        (aset acc.1 e ⟨relPoses.getD i dflt, c, inliers.getD i (1/2)⟩,
         aset acc.2 e (c : Int))

def loadViewGraph {α : Type} (relPoses : List α) (dflt : α) (inliers : List ℚ)
    (tbl : List ((Nat × Nat) × Nat)) (edges : List (Nat × Nat)) :
    List ((Nat × Nat) × TwoViewGeometry α) × List ((Nat × Nat) × Int) :=
  loadViewGraphLoop relPoses dflt inliers tbl 0 edges ([], [])

theorem loadLoop_dropped {α : Type} (relPoses : List α) (dflt : α) (inliers : List ℚ)
    (tbl : List ((Nat × Nat) × Nat)) (e : Nat × Nat) (he : alookup tbl e = none) :
    ∀ (edges : List (Nat × Nat)) (i : Nat)
      (acc : List ((Nat × Nat) × TwoViewGeometry α) × List ((Nat × Nat) × Int)),
      alookup (loadViewGraphLoop relPoses dflt inliers tbl i edges acc).1 e =
        alookup acc.1 e ∧
      alookup (loadViewGraphLoop relPoses dflt inliers tbl i edges acc).2 e =
        alookup acc.2 e := by
  intro edges
  induction edges with
  | nil => intro i acc; exact ⟨rfl, rfl⟩
  | cons e' rest ih =>
    intro i acc
    cases halk : alookup tbl e' with
    | none =>
      simp only [loadViewGraphLoop, halk]
      exact ih (i + 1) acc
    | some c =>
      have hne : e' ≠ e := by
        intro heq
        rw [heq, he] at halk
        cases halk
      simp only [loadViewGraphLoop, halk]
      obtain ⟨h1, h2⟩ := ih (i + 1)
        (aset acc.1 e' ⟨relPoses.getD i dflt, c, inliers.getD i (1/2)⟩,
         aset acc.2 e' (c : Int))
      rw [h1, h2]
      exact ⟨alookup_aset_ne acc.1 e' e _ hne, alookup_aset_ne acc.2 e' e _ hne⟩

/-- The property recorded for a kept edge. -/
def KeptEdge {α : Type} (e : Nat × Nat) (c : Nat)
    (acc : List ((Nat × Nat) × TwoViewGeometry α) × List ((Nat × Nat) × Int)) : Prop :=
  (∃ r : TwoViewGeometry α, alookup acc.1 e = some r ∧ r.numMatches = c) ∧
    alookup acc.2 e = some (c : Int)

theorem loadLoop_preserves_kept {α : Type} (relPoses : List α) (dflt : α)
    (inliers : List ℚ) (tbl : List ((Nat × Nat) × Nat)) (e : Nat × Nat) (c : Nat)
    (hc : alookup tbl e = some c) :
    ∀ (edges : List (Nat × Nat)) (i : Nat) acc,
      KeptEdge e c acc →
      KeptEdge e c (loadViewGraphLoop relPoses dflt inliers tbl i edges acc) := by
  intro edges
  induction edges with
  | nil => intro i acc h; exact h
  | cons e' rest ih =>
    intro i acc h
    cases halk : alookup tbl e' with
    | none =>
      simp only [loadViewGraphLoop, halk]
      exact ih (i + 1) acc h
    | some c' =>
      simp only [loadViewGraphLoop, halk]
      apply ih (i + 1)
      by_cases heq : e' = e
      · subst heq
        rw [hc] at halk
        injection halk with halk
        subst halk
        exact ⟨⟨⟨relPoses.getD i dflt, c, inliers.getD i (1/2)⟩,
          alookup_aset_self _ _ _, rfl⟩, alookup_aset_self _ _ _⟩
      · exact ⟨(by
          obtain ⟨r, hr1, hr2⟩ := h.1
          exact ⟨r, (alookup_aset_ne acc.1 e' e _ heq).trans hr1, hr2⟩),
          (alookup_aset_ne acc.2 e' e _ heq).trans h.2⟩

theorem loadLoop_kept {α : Type} (relPoses : List α) (dflt : α)
    (inliers : List ℚ) (tbl : List ((Nat × Nat) × Nat)) (e : Nat × Nat) (c : Nat)
    (hc : alookup tbl e = some c) :
    ∀ (edges : List (Nat × Nat)) (i : Nat) acc, e ∈ edges →
      KeptEdge e c (loadViewGraphLoop relPoses dflt inliers tbl i edges acc) := by
  intro edges
  induction edges with
  | nil => intro i acc h; cases h
  | cons e' rest ih =>
    intro i acc hmem
    rcases List.mem_cons.mp hmem with heq | hmem'
    · subst heq
      simp only [loadViewGraphLoop, hc]
      apply loadLoop_preserves_kept relPoses dflt inliers tbl e c hc rest (i + 1)
      exact ⟨⟨⟨relPoses.getD i dflt, c, inliers.getD i (1/2)⟩,
        alookup_aset_self _ _ _, rfl⟩, alookup_aset_self _ _ _⟩
    · cases halk : alookup tbl e' with
      | none =>
        simp only [loadViewGraphLoop, halk]
        exact ih (i + 1) acc hmem'
      | some c' =>
        simp only [loadViewGraphLoop, halk]
        exact ih (i + 1) _ hmem'

/-- C8: an edge of the relative-pose set absent from the match-count table is
silently dropped — no exception, no graph edge, no `TwoViewGeometry` record —
while every edge present in the table ends up in the graph with its match
count as integer weight and with a recorded `TwoViewGeometry`. -/
theorem view_graph_edge_filtering {α : Type} (relPoses : List α) (dflt : α)
    (inliers : List ℚ) (tbl : List ((Nat × Nat) × Nat))
    (edges : List (Nat × Nat)) (e : Nat × Nat) (he : e ∈ edges) :
    (alookup tbl e = none →
      alookup (loadViewGraph relPoses dflt inliers tbl edges).1 e = none ∧
      alookup (loadViewGraph relPoses dflt inliers tbl edges).2 e = none) ∧
    (∀ c, alookup tbl e = some c →
      (∃ r : TwoViewGeometry α,
        alookup (loadViewGraph relPoses dflt inliers tbl edges).1 e = some r ∧
        r.numMatches = c) ∧
      alookup (loadViewGraph relPoses dflt inliers tbl edges).2 e = some (c : Int)) := by
  constructor
  · intro hnone
    obtain ⟨h1, h2⟩ := loadLoop_dropped relPoses dflt inliers tbl e hnone edges 0 ([], [])
    exact ⟨h1, h2⟩
  · intro c hc
    exact loadLoop_kept relPoses dflt inliers tbl e c hc edges 0 ([], []) he

theorem view_graph_edge_filtering_witness :
    ((0, 1) ∈ [((0 : Nat), (1 : Nat)), (0, 2)]) ∧
    (alookup
      (loadViewGraph (α := List ℤ) [[5], [6]] [] [1, 1/2] [((0, 1), 12)]
        [(0, 1), (0, 2)]).2
      (0, 2) = none) ∧
    (∃ r : TwoViewGeometry (List ℤ),
      alookup (loadViewGraph [[5], [6]] [] [1, 1/2] [((0, 1), 12)]
        [(0, 1), (0, 2)]).1 (0, 1) = some r ∧ r.numMatches = 12) := by
  refine ⟨by decide, ?_, ?_⟩
  · exact ((view_graph_edge_filtering [[5], [6]] [] [1, 1/2] [((0, 1), 12)]
      [(0, 1), (0, 2)] (0, 2) (by decide)).1 (by decide)).2
  · exact ((view_graph_edge_filtering [[5], [6]] [] [1, 1/2] [((0, 1), 12)]
      [(0, 1), (0, 2)] (0, 1) (by decide)).2 12 (by decide)).1

/-! ### MST-based global rotation initialization
(dbarf/pose_util.py, `init_global_rotations_from_mst`)

Torch 3×3 rotation matrices are modelled generically by a `RotAlg`
(multiplication `@`, identity `torch.eye(3)`, `transpose(0, 1)`); concrete
claims instantiate it with integer 3×3 matrices.  `networkx.Graph` /
`minimum_spanning_tree` (Kruskal) are modelled as an edge list and Kruskal's
algorithm over edges stably sorted by weight; `queue.PriorityQueue` holding
`[priority, (i, j)]` lists pops the lexicographically least entry. -/

structure RotAlg (α : Type) where
  mul : α → α → α
  ident : α
  transp : α → α

abbrev Mat3 := List (List Int)

def dotRow (r : List Int) (B : Mat3) (j : Nat) : Int :=
  (List.range r.length).foldl (fun s i => s + r.getD i 0 * (B.getD i []).getD j 0) 0

def matMul (A B : Mat3) : Mat3 :=
  A.map (fun r => (List.range 3).map (fun j => dotRow r B j))

def matTrans (A : Mat3) : Mat3 :=
  (List.range 3).map (fun i => (List.range 3).map (fun j => (A.getD j []).getD i 0))

def matId : Mat3 := [[1, 0, 0], [0, 1, 0], [0, 0, 1]]

def rotAlgMat : RotAlg Mat3 := ⟨matMul, matId, matTrans⟩

/-- The trivial rotation algebra on integers (used for witnesses). -/
def rotAlgInt : RotAlg Int := ⟨(· * ·), 1, id⟩

/-- `int(w * 1e5)` for a rational `w` (Python `int` truncates toward zero,
and `w * 100000` is exactly `(num * 100000) / den`). -/
def intMul1e5 (w : ℚ) : Int := (w.num * 100000).tdiv (w.den : Int)

/-- `graph.add_edge(edge[0], edge[1], weight=1.0/num_matches)` over the keys
of `two_view_geometries`; the weight `1.0 / num_matches` is the rational
`mkRat 1 num_matches`. -/
def graphEdgesOfTVG {α : Type} (tvg : List ((Nat × Nat) × α × Nat)) :
    List ((Nat × Nat) × ℚ) :=
  tvg.map (fun p => (p.1, mkRat 1 p.2.2))

def sortEdgesByWeight (es : List ((Nat × Nat) × ℚ)) : List ((Nat × Nat) × ℚ) :=
  List.insertionSort (fun a b => a.2 ≤ b.2) es

def blockOf (blocks : List (List Nat)) (a : Nat) : List Nat :=
  (blocks.find? (fun b => a ∈ b)).getD [a]

/-- Kruskal's scan: keep an edge iff its endpoints lie in different
components, merging the two components. -/
def kruskalGo : List ((Nat × Nat) × ℚ) → List (List Nat) → List ((Nat × Nat) × ℚ)
  | [], _ => []
  | ew :: rest, blocks =>
    let ba := blockOf blocks ew.1.1
    let bb := blockOf blocks ew.1.2
    if ba = bb then kruskalGo rest blocks
    else ew :: kruskalGo rest ((ba ++ bb) :: blocks.filter (fun b => b ≠ ba ∧ b ≠ bb))

/-- `networkx.minimum_spanning_tree` (Kruskal, edges stably sorted by
weight). -/
def kruskal (es : List ((Nat × Nat) × ℚ)) : List ((Nat × Nat) × ℚ) :=
  kruskalGo (sortEdgesByWeight es) []

/-- Lexicographic comparison of `[priority_level, (i, j)]` entries, as Python
compares lists of an int and a tuple. -/
def pqLeEdge (a b : Int × Nat × Nat) : Prop :=
  a.1 < b.1 ∨ (a.1 = b.1 ∧ (a.2.1 < b.2.1 ∨ (a.2.1 = b.2.1 ∧ a.2.2 ≤ b.2.2)))

instance pqLeEdgeDec : DecidableRel pqLeEdge := fun a b =>
  inferInstanceAs (Decidable (a.1 < b.1 ∨
    (a.1 = b.1 ∧ (a.2.1 < b.2.1 ∨ (a.2.1 = b.2.1 ∧ a.2.2 ≤ b.2.2)))))

/-- Remove the least entry (first occurrence) of a nonempty queue. -/
def popMin {β : Type} (le : β → β → Prop) [DecidableRel le] :
    List β → Option (β × List β)
  | [] => none
  | a :: rest =>
    match popMin le rest with
    | none => some (a, [])
    | some (m, rest') => if le a m then some (a, rest) else some (m, a :: rest')

def mstNeighbors (mst : List ((Nat × Nat) × ℚ)) (i : Nat) : List (Nat × ℚ) :=
  mst.filterMap (fun ew =>
    if ew.1.1 = i then some (ew.1.2, ew.2)
    else if ew.1.2 = i then some (ew.1.1, ew.2) else none)

/-- `add_edges_to_heap(image_id)`: push `[int(weight * 1e5), (i, j)]` for
every unvisited MST neighbor `j`. -/
def addEdgesToHeap (mst : List ((Nat × Nat) × ℚ)) (visited : List Bool) (i : Nat)
    (qu : List (Int × Nat × Nat)) : List (Int × Nat × Nat) :=
  qu ++ (mstNeighbors mst i).filterMap (fun jw =>
    if visited.getD jw.1 false then none
    else some (intMul1e5 jw.2, i, jw.1))

/-- `compute_rotation(i, j)`: `R_j = R_ij @ R_i`, transposing the stored
relative rotation when the traversal runs against the canonical `(a < b)`
orientation.  (The looked-up key is always present: MST edges stem from
`two_view_geometries` keys; the `getD` default is never reached.) -/
def computeRotation {α : Type} (A : RotAlg α) (tvg : List ((Nat × Nat) × α × Nat))
    (rot : List α) (i j : Nat) : List α :=
  let R :=
    if i < j then ((alookup tvg (i, j)).map Prod.fst).getD A.ident
    else A.transp (((alookup tvg (j, i)).map Prod.fst).getD A.ident)
  rot.set j (A.mul R (rot.getD i A.ident))

/-- The `while not qu.empty()` traversal, fuelled; the fuel supplied by
`initGlobalRotationsFromMST` dominates the number of pops (each push stems
from one `add_edges_to_heap` call per node, at most `2·|mst|` in total). -/
def propagateLoop {α : Type} (A : RotAlg α) (tvg : List ((Nat × Nat) × α × Nat))
    (mst : List ((Nat × Nat) × ℚ)) :
    Nat → List α → List Bool → List (Int × Nat × Nat) → List α × List Bool
  | 0, rot, visited, _ => (rot, visited)
  | fuel + 1, rot, visited, qu =>
    match popMin pqLeEdge qu with
    | none => (rot, visited)
    | some (e, qu') =>
      if visited.getD e.2.2 false then propagateLoop A tvg mst fuel rot visited qu'
      else
        let rot' := computeRotation A tvg rot e.2.1 e.2.2
        let visited' := visited.set e.2.2 true
        propagateLoop A tvg mst fuel rot' visited'
          (addEdgesToHeap mst visited' e.2.2 qu')

/-- `init_global_rotations_from_mst`. -/
def initGlobalRotationsFromMST {α : Type} (A : RotAlg α)
    (tvg : List ((Nat × Nat) × α × Nat)) (numRotations refImageId : Nat)
    (refRotation : α) : List α :=
  let rot := (List.replicate numRotations A.ident).set refImageId refRotation
  let mst := kruskal (graphEdgesOfTVG tvg)
  let visited := (List.replicate numRotations false).set refImageId true
  let qu := addEdgesToHeap mst visited refImageId []
  (propagateLoop A tvg mst (2 * mst.length + 1) rot visited qu).1

/-! ### Claim C2: the concrete MST test -/

def R0mat : Mat3 := [[0, 1, 0], [1, 0, 0], [0, 0, -1]]

def R01mat : Mat3 := [[0, 1, 0], [0, 0, 1], [1, 0, 0]]

def R12mat : Mat3 := [[1, 0, 0], [0, 0, -1], [0, 1, 0]]

def R02mat : Mat3 := [[0, 0, 1], [0, 1, 0], [-1, 0, 0]]

/-- The claim's view graph: edges (0,1), (1,2), (0,2) with match counts 10,
5, 1. -/
def tvgC2 : List ((Nat × Nat) × Mat3 × Nat) :=
  [((0, 1), (R01mat, 10)), ((1, 2), (R12mat, 5)), ((0, 2), (R02mat, 1))]

def mstC2 : List ((Nat × Nat) × ℚ) := kruskal (graphEdgesOfTVG tvgC2)

def rotC2 : List Mat3 := initGlobalRotationsFromMST rotAlgMat tvgC2 3 0 R0mat

/-- C2 (counterexample): on the graph with match counts 10, 5, 1 the
*minimum* spanning tree over weights `1/count` keeps the cheap edges
(0,1) (weight 0.1) and (1,2) (weight 0.2), not the claimed (0,2); and the
propagated rotation at node 2 is not `R_02 @ R_0`.  (The claimed tree
{(0,2),(1,2)} with cost 1.2 is the *maximum*, not minimum, spanning tree.) -/
theorem mst_init_rotations_counterexample :
    ((0, 2) ∉ mstC2.map Prod.fst) ∧
    rotC2.getD 2 matId ≠ matMul R02mat R0mat :=
  ⟨by decide, by decide⟩

/-- C2 (amended): the MST selects exactly edges (0,1) and (1,2), of total
inverse-count cost `1/10 + 1/5 = 3/10`, which is minimal among the three
spanning trees of the triangle; after propagation from reference node 0 the
rotation at node 1 equals `R_01 @ R_0` and the rotation at node 2 equals
`R_12 @ R_1`. -/
theorem mst_init_rotations_amended :
    mstC2 = [((0, 1), mkRat 1 10), ((1, 2), mkRat 1 5)] ∧
    ((1 : ℚ)/10 + 1/5 = 3/10 ∧
      (3 : ℚ)/10 ≤ 1/10 + 1 ∧ (3 : ℚ)/10 ≤ 1/5 + 1) ∧
    rotC2 = [R0mat, matMul R01mat R0mat, matMul R12mat (matMul R01mat R0mat)] :=
  ⟨by decide, by norm_num, by decide⟩

/-! ### Claim C6: disconnected nodes keep the identity rotation -/

/-- Reachability in the undirected view graph given by a list of edge
pairs. -/
inductive ReachG (edges : List (Nat × Nat)) : Nat → Nat → Prop
  | refl (a : Nat) : ReachG edges a a
  | step {a b c : Nat} : ReachG edges a b → ((b, c) ∈ edges ∨ (c, b) ∈ edges) →
      ReachG edges a c

theorem kruskalGo_subset (es : List ((Nat × Nat) × ℚ)) :
    ∀ (blocks : List (List Nat)) (e : (Nat × Nat) × ℚ),
      e ∈ kruskalGo es blocks → e ∈ es := by
  induction es with
  | nil => intro blocks e h; cases h
  | cons ew rest ih =>
    intro blocks e h
    simp only [kruskalGo] at h
    by_cases hb : blockOf blocks ew.1.1 = blockOf blocks ew.1.2
    · rw [if_pos hb] at h
      exact List.mem_cons_of_mem _ (ih _ e h)
    · rw [if_neg hb] at h
      rcases List.mem_cons.mp h with h | h
      · exact h ▸ List.mem_cons_self _ _
      · exact List.mem_cons_of_mem _ (ih _ e h)

theorem kruskal_subset (es : List ((Nat × Nat) × ℚ)) (e : (Nat × Nat) × ℚ)
    (h : e ∈ kruskal es) : e ∈ es := by
  have h1 := kruskalGo_subset (sortEdgesByWeight es) [] e h
  unfold sortEdgesByWeight at h1
  exact (List.perm_insertionSort (fun a b => a.2 ≤ b.2) es).mem_iff.mp h1

theorem graphEdges_fst {α : Type} (tvg : List ((Nat × Nat) × α × Nat)) :
    (graphEdgesOfTVG tvg).map Prod.fst = tvg.map Prod.fst := by
  simp [graphEdgesOfTVG, List.map_map, Function.comp]

theorem popMin_mem {β : Type} (le : β → β → Prop) [DecidableRel le] :
    ∀ (q : List β) (m : β) (q' : List β), popMin le q = some (m, q') →
      m ∈ q ∧ ∀ x ∈ q', x ∈ q := by
  intro q
  induction q with
  | nil => intro m q' h; cases h
  | cons a rest ih =>
    intro m q' h
    simp only [popMin] at h
    cases hrest : popMin le rest with
    | none =>
      rw [hrest] at h
      have h' : some (a, ([] : List β)) = some (m, q') := h
      injection h' with h'
      injection h' with h1 h2
      subst h1
      subst h2
      exact ⟨List.mem_cons_self _ _, fun x hx => by cases hx⟩
    | some p =>
      obtain ⟨m', rest'⟩ := p
      obtain ⟨hm', hrest'⟩ := ih m' rest' hrest
      rw [hrest] at h
      have h' : (if le a m' then some (a, rest) else some (m', a :: rest')) =
          some (m, q') := h
      by_cases hle : le a m'
      · rw [if_pos hle] at h'
        injection h' with h'
        injection h' with h1 h2
        subst h1
        subst h2
        exact ⟨List.mem_cons_self _ _, fun x hx => List.mem_cons_of_mem _ hx⟩
      · rw [if_neg hle] at h'
        injection h' with h'
        injection h' with h1 h2
        subst h1
        subst h2
        refine ⟨List.mem_cons_of_mem _ hm', ?_⟩
        intro x hx
        rcases List.mem_cons.mp hx with hx | hx
        · exact hx ▸ List.mem_cons_self _ _
        · exact List.mem_cons_of_mem _ (hrest' x hx)

theorem mstNeighbors_mem (mst : List ((Nat × Nat) × ℚ)) (i : Nat) (jw : Nat × ℚ)
    (h : jw ∈ mstNeighbors mst i) :
    (i, jw.1) ∈ mst.map Prod.fst ∨ (jw.1, i) ∈ mst.map Prod.fst := by
  simp only [mstNeighbors, List.mem_filterMap] at h
  obtain ⟨ew, hew, hmap⟩ := h
  by_cases h1 : ew.1.1 = i
  · rw [if_pos h1] at hmap
    injection hmap with hmap
    left
    have : ew.1 = (i, jw.1) := by
      rw [← h1, ← hmap]
    exact this ▸ List.mem_map_of_mem Prod.fst hew
  · rw [if_neg h1] at hmap
    by_cases h2 : ew.1.2 = i
    · rw [if_pos h2] at hmap
      injection hmap with hmap
      right
      have : ew.1 = (jw.1, i) := by
        rw [← h2, ← hmap]
      exact this ▸ List.mem_map_of_mem Prod.fst hew
    · rw [if_neg h2] at hmap
      cases hmap

/-- The invariant maintained by the propagation loop: visited nodes are
reachable from the reference, queue entries start at reachable nodes and
follow MST edges, and unreachable nodes still hold the identity rotation. -/
def PropInv {α : Type} (edges mstPairs : List (Nat × Nat)) (ref : Nat)
    (ident : α) (rot : List α) (visited : List Bool)
    (qu : List (Int × Nat × Nat)) : Prop :=
  (∀ j, visited.getD j false = true → ReachG edges ref j) ∧
  (∀ e ∈ qu, ReachG edges ref e.2.1 ∧
    ((e.2.1, e.2.2) ∈ mstPairs ∨ (e.2.2, e.2.1) ∈ mstPairs)) ∧
  (∀ j, ¬ ReachG edges ref j → rot.getD j ident = ident)

theorem addEdgesToHeap_inv {α : Type} (edges : List (Nat × Nat))
    (mst : List ((Nat × Nat) × ℚ)) (ref : Nat) (ident : α)
    (visited : List Bool) (i : Nat) (qu : List (Int × Nat × Nat))
    (hqu : ∀ e ∈ qu, ReachG edges ref e.2.1 ∧
      ((e.2.1, e.2.2) ∈ mst.map Prod.fst ∨ (e.2.2, e.2.1) ∈ mst.map Prod.fst))
    (hi : ReachG edges ref i) :
    ∀ e ∈ addEdgesToHeap mst visited i qu, ReachG edges ref e.2.1 ∧
      ((e.2.1, e.2.2) ∈ mst.map Prod.fst ∨ (e.2.2, e.2.1) ∈ mst.map Prod.fst) := by
  intro e he
  rcases List.mem_append.mp he with he | he
  · exact hqu e he
  · simp only [List.mem_filterMap] at he
    obtain ⟨jw, hjw, hmap⟩ := he
    by_cases hv : visited.getD jw.1 false
    · rw [if_pos hv] at hmap
      cases hmap
    · rw [if_neg hv] at hmap
      injection hmap with hmap
      subst hmap
      exact ⟨hi, mstNeighbors_mem mst i jw hjw⟩

theorem getD_replicate {α : Type} (n : Nat) (a : α) (i : Nat) :
    (List.replicate n a).getD i a = a := by
  rcases Nat.lt_or_ge i n with h | h
  · simp [List.getD_eq_getElem?_getD, List.getElem?_replicate, h]
  · have hlen : (List.replicate n a).length ≤ i := by simpa using h
    simp [List.getD_eq_getElem?_getD, List.getElem?_eq_none hlen]

theorem getD_set_true (visited : List Bool) (j u : Nat)
    (h : (visited.set j true).getD u false = true) :
    u = j ∨ visited.getD u false = true := by
  by_cases huj : u = j
  · exact Or.inl huj
  · right
    rw [← h, getD_set_ne _ _ _ _ _ (fun he => huj he.symm)]

theorem propagateLoop_inv {α : Type} (A : RotAlg α)
    (tvg : List ((Nat × Nat) × α × Nat)) (mst : List ((Nat × Nat) × ℚ)) (ref : Nat)
    (hsub : ∀ p ∈ mst.map Prod.fst, p ∈ tvg.map Prod.fst) :
    ∀ (fuel : Nat) (rot : List α) (visited : List Bool)
      (qu : List (Int × Nat × Nat)),
      PropInv (tvg.map Prod.fst) (mst.map Prod.fst) ref A.ident rot visited qu →
      ∀ j, ¬ ReachG (tvg.map Prod.fst) ref j →
        ((propagateLoop A tvg mst fuel rot visited qu).1).getD j A.ident =
          A.ident := by
  intro fuel
  induction fuel with
  | zero =>
    intro rot visited qu hinv j hj
    exact hinv.2.2 j hj
  | succ fuel ih =>
    intro rot visited qu hinv j hj
    obtain ⟨hvis, hq, hrot⟩ := hinv
    cases hpop : popMin pqLeEdge qu with
    | none =>
      simp only [propagateLoop, hpop]
      exact hrot j hj
    | some p =>
      obtain ⟨e, qu'⟩ := p
      obtain ⟨hemem, hsubq⟩ := popMin_mem pqLeEdge qu e qu' hpop
      simp only [propagateLoop, hpop]
      by_cases hv : visited.getD e.2.2 false = true
      · rw [if_pos hv]
        exact ih rot visited qu' ⟨hvis, fun x hx => hq x (hsubq x hx), hrot⟩ j hj
      · rw [if_neg hv]
        obtain ⟨hreachi, hpair⟩ := hq e hemem
        have hreachj : ReachG (tvg.map Prod.fst) ref e.2.2 := by
          apply ReachG.step hreachi
          rcases hpair with hp | hp
          · exact Or.inl (hsub _ hp)
          · exact Or.inr (hsub _ hp)
        refine ih _ _ _ ⟨?_, ?_, ?_⟩ j hj
        · intro u hu
          rcases getD_set_true visited e.2.2 u hu with hu' | hu'
          · exact hu' ▸ hreachj
          · exact hvis u hu'
        · exact addEdgesToHeap_inv (tvg.map Prod.fst) mst ref A.ident _ _ qu'
            (fun x hx => hq x (hsubq x hx)) hreachj
        · intro u hu
          have hne : e.2.2 ≠ u := fun he => hu (he ▸ hreachj)
          show (computeRotation A tvg rot e.2.1 e.2.2).getD u A.ident = A.ident
          unfold computeRotation
          rw [getD_set_ne _ _ _ _ _ hne]
          exact hrot u hu

theorem propagateLoop_length {α : Type} (A : RotAlg α)
    (tvg : List ((Nat × Nat) × α × Nat)) (mst : List ((Nat × Nat) × ℚ)) :
    ∀ (fuel : Nat) (rot : List α) (visited : List Bool)
      (qu : List (Int × Nat × Nat)),
      ((propagateLoop A tvg mst fuel rot visited qu).1).length = rot.length := by
  intro fuel
  induction fuel with
  | zero => intro rot visited qu; rfl
  | succ fuel ih =>
    intro rot visited qu
    cases hpop : popMin pqLeEdge qu with
    | none => simp [propagateLoop, hpop]
    | some p =>
      obtain ⟨e, qu'⟩ := p
      simp only [propagateLoop, hpop]
      by_cases hv : visited.getD e.2.2 false = true
      · rw [if_pos hv]
        exact ih rot visited qu'
      · rw [if_neg hv]
        rw [ih _ _ _]
        show (computeRotation A tvg rot e.2.1 e.2.2).length = rot.length
        unfold computeRotation
        exact List.length_set rot _ _

/-- C6: a node with no path to the reference in the view graph keeps the
identity rotation after MST propagation, and no error is raised (the
computation is total). -/
theorem mst_disconnected_keeps_identity {α : Type} (A : RotAlg α)
    (tvg : List ((Nat × Nat) × α × Nat)) (n ref : Nat) (refRot : α) (u : Nat)
    (hu : ¬ ReachG (tvg.map Prod.fst) ref u) :
    (initGlobalRotationsFromMST A tvg n ref refRot).getD u A.ident = A.ident ∧
    (initGlobalRotationsFromMST A tvg n ref refRot).length = n := by
  constructor
  · apply propagateLoop_inv A tvg (kruskal (graphEdgesOfTVG tvg)) ref
    · intro p hp
      rw [← graphEdges_fst tvg]
      rcases List.mem_map.mp hp with ⟨ew, hew, hmap⟩
      exact hmap ▸ List.mem_map_of_mem Prod.fst
        (kruskal_subset (graphEdgesOfTVG tvg) ew hew)
    · refine ⟨?_, ?_, ?_⟩
      · intro v hv
        rcases getD_set_true (List.replicate n false) ref v hv with h | h
        · rw [h]
          exact ReachG.refl ref
        · rw [getD_replicate] at h
          cases h
      · exact addEdgesToHeap_inv (tvg.map Prod.fst) _ ref A.ident _ ref []
          (fun x hx => by cases hx) (ReachG.refl ref)
      · intro v hv
        have hvne : v ≠ ref := fun he => hv (by rw [he]; exact ReachG.refl ref)
        rw [getD_set_ne _ _ _ _ _ (fun he => hvne he.symm), getD_replicate]
    · exact hu
  · show ((propagateLoop A tvg _ _ _ _ _).1).length = n
    rw [propagateLoop_length]
    simp

theorem mst_disconnected_keeps_identity_witness :
    (¬ ReachG [((0 : Nat), (1 : Nat))] 0 2) ∧
    (initGlobalRotationsFromMST rotAlgInt [((0, 1), (5, 3))] 3 0 9).getD 2 1 = 1 ∧
    (initGlobalRotationsFromMST rotAlgInt [((0, 1), (5, 3))] 3 0 9).length = 3 := by
  have hnr : ¬ ReachG [((0 : Nat), (1 : Nat))] 0 2 := by
    intro h
    cases h with
    | step hb hmem =>
      rcases hmem with hmem | hmem <;> simp at hmem
  have hmain := mst_disconnected_keeps_identity rotAlgInt
    [((0, 1), (5, 3))] 3 0 9 2 (by simpa using hnr)
  exact ⟨hnr, hmain.1, hmain.2⟩

/-! ### Nearby-view selection (dbarf/data_loaders/data_utils.py,
`get_nearby_view_ids`)

Entries `[priority, j]` with `priority = int((1.0/weight) * 1e5)`; the
priority queue pops the lexicographically least entry. -/

/-- Lexicographic comparison of `[priority, node_id]` entries. -/
def pqLeSel (a b : Int × Nat) : Prop :=
  a.1 < b.1 ∨ (a.1 = b.1 ∧ a.2 ≤ b.2)

instance pqLeSelDec : DecidableRel pqLeSel := fun a b =>
  inferInstanceAs (Decidable (a.1 < b.1 ∨ (a.1 = b.1 ∧ a.2 ≤ b.2)))

/-- `graph.neighbors(target_node_id)` with edge weights. -/
def neighborsOf (graph : List ((Nat × Nat) × Int)) (t : Nat) : List (Nat × Int) :=
  graph.filterMap (fun ew =>
    if ew.1.1 = t then some (ew.1.2, ew.2)
    else if ew.1.2 = t then some (ew.1.1, ew.2) else none)

/-- The queue contents: neighbors present in `node_id_to_idx`, with
priority `int((1.0 / weight) * 1e5)`. -/
def selEntries (graph : List ((Nat × Nat) × Int)) (nodeIdToIdx : List (Nat × Nat))
    (t : Nat) : List (Int × Nat) :=
  (neighborsOf graph t).filterMap (fun jw =>
    if (alookup nodeIdToIdx jw.1).isSome then
      some (intMul1e5 (mkRat 1 jw.2.toNat), jw.1)
    else none)

/-- The `while not qu.empty() and k < num_select` pop loop. -/
def selectLoop : Nat → List (Int × Nat) → List (Int × Nat)
  | 0, _ => []
  | k + 1, q =>
    match popMin pqLeSel q with
    | none => []
    | some (m, q') => m :: selectLoop k q'

/-- `get_nearby_view_ids` (a missing `target_id` key would be a Python
`KeyError`, modelled as `none`). -/
def getNearbyViewIds (targetId : Nat) (graph : List ((Nat × Nat) × Int))
    (idxToNodeId nodeIdToIdx : List (Nat × Nat)) (numSelect : Nat) :
    Option (List Nat) :=
  match alookup idxToNodeId targetId with
  | none => none
  | some t =>
    some ((selectLoop numSelect (selEntries graph nodeIdToIdx t)).map
      (fun e => (alookup nodeIdToIdx e.2).getD 0))

theorem popMin_eq_none {β : Type} (le : β → β → Prop) [DecidableRel le]
    (l : List β) (h : popMin le l = none) : l = [] := by
  cases l with
  | nil => rfl
  | cons a rest =>
    simp only [popMin] at h
    cases hrest : popMin le rest with
    | none =>
      rw [hrest] at h
      cases h
    | some p =>
      obtain ⟨m, rest'⟩ := p
      rw [hrest] at h
      have h' : (if le a m then some (a, rest) else some (m, a :: rest')) =
          none := h
      by_cases hle : le a m
      · rw [if_pos hle] at h'
        cases h'
      · rw [if_neg hle] at h'
        cases h'

/-- Popping the least entry commutes with stable insertion sort. -/
theorem popMin_sort {β : Type} (le : β → β → Prop) [DecidableRel le] :
    ∀ (l : List β) (m : β) (l' : List β), popMin le l = some (m, l') →
      List.insertionSort le l = m :: List.insertionSort le l' := by
  intro l
  induction l with
  | nil => intro m l' h; cases h
  | cons a rest ih =>
    intro m l' h
    simp only [popMin] at h
    cases hrest : popMin le rest with
    | none =>
      have hrnil : rest = [] := popMin_eq_none le rest hrest
      subst hrnil
      rw [hrest] at h
      have h' : some (a, ([] : List β)) = some (m, l') := h
      injection h' with h'
      injection h' with h1 h2
      subst h1
      subst h2
      simp [List.insertionSort, List.orderedInsert]
    | some p =>
      obtain ⟨m', rest'⟩ := p
      have hsort := ih m' rest' hrest
      rw [hrest] at h
      have h' : (if le a m' then some (a, rest) else some (m', a :: rest')) =
          some (m, l') := h
      by_cases hle : le a m'
      · rw [if_pos hle] at h'
        injection h' with h'
        injection h' with h1 h2
        subst h1
        subst h2
        show List.orderedInsert le a (List.insertionSort le rest) = _
        rw [hsort, List.orderedInsert, if_pos hle, ← hsort]
      · rw [if_neg hle] at h'
        injection h' with h'
        injection h' with h1 h2
        subst h1
        subst h2
        show List.orderedInsert le a (List.insertionSort le rest) = _
        rw [hsort, List.orderedInsert, if_neg hle]
        rfl

/-- The pop loop returns the first `k` entries of the queue in sorted
order. -/
theorem selectLoop_eq_sorted_take :
    ∀ (k : Nat) (q : List (Int × Nat)),
      selectLoop k q = (List.insertionSort pqLeSel q).take k := by
  intro k
  induction k with
  | zero => intro q; simp [selectLoop]
  | succ k ih =>
    intro q
    cases hq : popMin pqLeSel q with
    | none =>
      have : q = [] := popMin_eq_none pqLeSel q hq
      subst this
      simp [selectLoop, popMin]
    | some p =>
      obtain ⟨m, q'⟩ := p
      simp only [selectLoop, hq]
      rw [popMin_sort pqLeSel q m q' hq, List.take_succ_cons, ih q']

/-- C5 (counterexample): with neighbor weights 200000 (node 1) and 300000
(node 2) and `num_select = 1`, the selector returns node 1 — not node 2,
the unique highest-weight neighbor — because both priorities truncate to
`int(1e5/w) = 0` and the tie breaks on the smaller node id. -/
theorem nearby_view_ids_counterexample :
    getNearbyViewIds 0 [((0, 1), 200000), ((0, 2), 300000)]
      [(0, 0), (1, 1), (2, 2)] [(0, 0), (1, 1), (2, 2)] 1 = some [1] ∧
    getNearbyViewIds 0 [((0, 1), 200000), ((0, 2), 300000)]
      [(0, 0), (1, 1), (2, 2)] [(0, 0), (1, 1), (2, 2)] 1 ≠ some [2] ∧
    (200000 : Int) < 300000 :=
  ⟨by decide, by decide, by decide⟩

/-- C5 (amended): `get_nearby_view_ids` returns the
`min(num_select, number of mapped neighbors)` neighbors that come first in
the ascending lexicographic order of `(int(1e5/weight), node id)` — the
top-k by match count whenever the truncated priorities distinguish the
neighbors (e.g. weights A:50, B:5, C:20 with `num_select = 2` select exactly
{A, C}); with fewer than `num_select` mapped neighbors all of them are
returned, without padding or error. -/
theorem nearby_view_ids_selection (targetId : Nat)
    (graph : List ((Nat × Nat) × Int)) (idm ndm : List (Nat × Nat))
    (k : Nat) (t : Nat) (ht : alookup idm targetId = some t) :
    getNearbyViewIds targetId graph idm ndm k =
      some (((List.insertionSort pqLeSel (selEntries graph ndm t)).take k).map
        (fun e => (alookup ndm e.2).getD 0)) ∧
    (((List.insertionSort pqLeSel (selEntries graph ndm t)).take k).map
        (fun e => (alookup ndm e.2).getD 0)).length =
      min k (selEntries graph ndm t).length := by
  constructor
  · show (match alookup idm targetId with
      | none => none
      | some t => some ((selectLoop k (selEntries graph ndm t)).map
          (fun e : Int × Nat => (alookup ndm e.2).getD 0))) = _
    rw [ht]
    show some ((selectLoop k (selEntries graph ndm t)).map
      (fun e : Int × Nat => (alookup ndm e.2).getD 0)) = _
    rw [selectLoop_eq_sorted_take]
  · rw [List.length_map, List.length_take,
      (List.perm_insertionSort pqLeSel (selEntries graph ndm t)).length_eq]

theorem nearby_view_ids_selection_witness :
    (alookup [((0 : Nat), (0 : Nat)), (1, 1), (2, 2), (3, 3)] 0 = some 0) ∧
    getNearbyViewIds 0 [((0, 1), 50), ((0, 2), 5), ((0, 3), 20)]
      [(0, 0), (1, 1), (2, 2), (3, 3)] [(0, 0), (1, 1), (2, 2), (3, 3)] 2 =
      some [1, 3] ∧
    getNearbyViewIds 0 [((0, 1), 50), ((0, 2), 5), ((0, 3), 20)]
      [(0, 0), (1, 1), (2, 2), (3, 3)] [(0, 0), (1, 1), (2, 2), (3, 3)] 9 =
      some [1, 3, 2] := by
  refine ⟨by decide, ?_, ?_⟩
  · rw [(nearby_view_ids_selection 0 [((0, 1), 50), ((0, 2), 5), ((0, 3), 20)]
      [(0, 0), (1, 1), (2, 2), (3, 3)] [(0, 0), (1, 1), (2, 2), (3, 3)] 2 0
      (by decide)).1]
    decide
  · rw [(nearby_view_ids_selection 0 [((0, 1), 50), ((0, 2), 5), ((0, 3), 20)]
      [(0, 0), (1, 1), (2, 2), (3, 3)] [(0, 0), (1, 1), (2, 2), (3, 3)] 9 0
      (by decide)).1]
    decide

end Dbarf
